import Mathlib

/-!
Verification development for the sdfperf operator-graph and shader-code-generation
pipeline.

The data model and the code generator are translated from `src/operator.rs`,
`src/shader_builder.rs`, `src/network.rs` and the rebuild step of `src/main.rs`.
The generic edge-list graph container (`Graph<Op, Connection>` with `add_node`,
`add_edge`, `remove_node`, `traverse`) is used by those files but its defining
module is not present in the source tree (only a superseded UUID/hash-set
revision of `graph.rs` is); those operations are modelled from the design
specification, as marked on each definition.

Modelling conventions:
* `usize` is `Nat` (no arithmetic close to overflow occurs); the one truncating
  subtraction (`Connected::get_number_of_available_inputs`) is modelled by `Nat`
  truncated subtraction, which matches release-mode wrap-free behaviour exactly
  on the no-underflow side conditions proved below.
* `f32` parameter values are modelled as `ℚ`; the only arithmetic performed on
  them in the modelled core is component-wise addition, and every literal
  appearing in the source is carried over verbatim.
* UI-only state (bounding rectangles, interaction state, UUIDs, textures,
  GL objects) is dropped: the modelled operations never read it.
-/

namespace Sdfperf

/-- Domain operator sub-variants, from `operator.rs` (`DomainType`). -/
inductive DomainType
  | Root
  | Transform
  | Twist
  | Bend
deriving DecidableEq, Repr

/-- Primitive operator sub-variants, from `operator.rs` (`PrimitiveType`). -/
inductive PrimitiveType
  | Sphere
  | Box
  | Plane
  | Torus
  | Union
  | Subtraction
  | Intersection
  | SmoothMinimum
  | Render
deriving DecidableEq, Repr

/-- Operator families, from `operator.rs` (`OpFamily`). -/
inductive OpFamily
  | Domain (d : DomainType)
  | Primitive (p : PrimitiveType)
deriving DecidableEq, Repr

/-- Four-component parameter vector (`[f32; 4]` in the source, components as `ℚ`). -/
structure Vec4 where
  x : ℚ
  y : ℚ
  z : ℚ
  w : ℚ
deriving DecidableEq, Repr

/-- Flatten a four-component vector, in component order. -/
def Vec4.toList (v : Vec4) : List ℚ := [v.x, v.y, v.z, v.w]

/-- Operator parameter block, from `operator.rs` (`Parameters`). -/
structure Parameters where
  data : Vec4
  names : List String
  index : Nat
  min : Vec4
  max : Vec4
  step : Vec4
deriving DecidableEq, Repr

/-- Default parameter block, from `operator.rs` (`impl Default for Parameters`). -/
def Parameters.default : Parameters :=
  { data := ⟨0, 0, 0, 0⟩
    names := ["param0", "param1", "param2", "param3"]
    index := 0
    min := ⟨0, 0, 0, 0⟩
    max := ⟨0, 0, 0, 0⟩
    step := ⟨0, 0, 0, 0⟩ }

/-- Human-readable family name, from `operator.rs` (`OpFamily::to_string`). -/
def OpFamily.to_string : OpFamily → String
  | .Domain .Root => "root"
  | .Domain .Transform => "transform"
  | .Domain .Twist => "twist"
  | .Domain .Bend => "bend"
  | .Primitive .Sphere => "sphere"
  | .Primitive .Box => "box"
  | .Primitive .Plane => "plane"
  | .Primitive .Torus => "torus"
  | .Primitive .Union => "union"
  | .Primitive .Subtraction => "subtraction"
  | .Primitive .Intersection => "intersection"
  | .Primitive .SmoothMinimum => "smooth_minimum"
  | .Primitive .Render => "render"

/-- Maximum number of ops connectable to an input slot, from `operator.rs`
(`OpFamily::get_input_capacity`). -/
def OpFamily.get_input_capacity : OpFamily → Nat
  | .Domain .Root => 0
  | .Domain _ => 1
  | .Primitive .Union => 2
  | .Primitive .Subtraction => 2
  | .Primitive .Intersection => 2
  | .Primitive .SmoothMinimum => 2
  | .Primitive _ => 1

/-- Whether the input slot accepts connections, from `operator.rs`
(`OpFamily::has_inputs`). -/
def OpFamily.has_inputs (f : OpFamily) : Bool :=
  decide (0 < f.get_input_capacity)

/-- Whether the output slot accepts connections, from `operator.rs`
(`OpFamily::has_outputs`). -/
def OpFamily.has_outputs : OpFamily → Bool
  | .Domain _ => true
  | .Primitive .Render => false
  | .Primitive _ => true

/-- GLSL code template per family, from `operator.rs`
(`OpFamily::get_code_template`), whitespace reproduced exactly. -/
def OpFamily.get_code_template : OpFamily → String
  | .Domain .Root =>
      "\n                    vec3 p_NAME = p;\n                    float s_NAME = 1.0;"
  | .Domain .Transform =>
      "\n                    float s_NAME = params[INDEX].w * s_INPUT_A;\n                    vec3 t_NAME = params[INDEX].xyz;\n                    vec3 p_NAME = p_INPUT_A / s_NAME + t_NAME;"
  | .Domain .Twist =>
      "\n                    float s_NAME = s_INPUT_A;\n                    vec3 p_NAME = domain_twist(p_INPUT_A, params[INDEX].x);"
  | .Domain .Bend =>
      "\n                    float s_NAME = s_INPUT_A;\n                    vec3 p_NAME = domain_bend(p_INPUT_A, params[INDEX].x);"
  | .Primitive .Sphere =>
      "float NAME = sdf_sphere(p_INPUT_A, vec3(0.0), 1.0) * s_INPUT_A;"
  | .Primitive .Box =>
      "float NAME = sdf_box(p_INPUT_A, vec3(1.0)) * s_INPUT_A;"
  | .Primitive .Plane =>
      "float NAME = sdf_plane(p_INPUT_A, -1.0) * s_INPUT_A;"
  | .Primitive .Torus =>
      "float NAME = sdf_torus(p_INPUT_A, vec2(1.0, 0.5)) * s_INPUT_A;"
  | .Primitive .Union =>
      "float NAME = op_union(INPUT_A, INPUT_B);"
  | .Primitive .Subtraction =>
      "float NAME = op_subtract(INPUT_A, INPUT_B);"
  | .Primitive .Intersection =>
      "float NAME = op_intersect(INPUT_A, INPUT_B);"
  | .Primitive .SmoothMinimum =>
      "float NAME = op_smooth_min(INPUT_A, INPUT_B, params[INDEX].x);"
  | .Primitive .Render =>
      "float NAME = INPUT_A;"

/-- Default parameters per family, from `operator.rs`
(`OpFamily::get_default_params`); `f32` literals carried over as rationals. -/
def OpFamily.get_default_params : OpFamily → Parameters
  | .Domain .Transform =>
      { data := ⟨0, 0, 0, 1⟩
        names := ["translate_x", "translate_y", "translate_z", "scale"]
        index := 0
        min := ⟨-10, -10, -10, 1/10⟩
        max := ⟨10, 10, 10, 10⟩
        step := ⟨1/2, 1/2, 1/2, 1/10⟩ }
  | .Domain .Twist =>
      { data := ⟨4, 4, 0, 0⟩
        names := ["twist_x", "twist_y", "", ""]
        index := 0
        min := ⟨0, 0, 0, 0⟩
        max := ⟨20, 20, 0, 0⟩
        step := ⟨1, 1, 0, 0⟩ }
  | .Domain .Bend =>
      { data := ⟨1/2, 1/2, 0, 0⟩
        names := ["bend_x", "bend_y", "", ""]
        index := 0
        min := ⟨0, 0, 0, 0⟩
        max := ⟨2, 2, 0, 0⟩
        step := ⟨1/20, 1/20, 0, 0⟩ }
  | .Domain _ => Parameters.default
  | .Primitive .SmoothMinimum =>
      { data := ⟨1, 0, 0, 0⟩
        names := ["exponent", "", "", ""]
        index := 0
        min := ⟨0, 0, 0, 0⟩
        max := ⟨1, 0, 0, 0⟩
        step := ⟨1/10, 0, 0, 0⟩ }
  | .Primitive _ => Parameters.default

/-- Operator instance, from `operator.rs` (`Op`); UI-only fields
(bounding rectangles, interaction state, UUID) are dropped. -/
structure Op where
  active_inputs : Nat
  name : String
  family : OpFamily
  params : Parameters
deriving DecidableEq, Repr

/-- Operator construction, from `operator.rs` (`Op::new`); the process-wide
monotonic `COUNTER` is passed explicitly as `count` (explicit-state form of the
global, as the design notes prescribe). -/
def Op.new (family : OpFamily) (count : Nat) : Op :=
  { active_inputs := 0
    name := family.to_string ++ "_" ++ toString count
    family := family
    params := family.get_default_params }

/-- Default operator value used only as the fallback of `List.getD` lookups that
are index-guarded in the source. -/
def dfltOp : Op := Op.new (.Domain .Root) 0

/-- Decide whether `pat` is a leading run of `s`. -/
def leadsWith : List Char → List Char → Bool
  | [], _ => true
  | _ :: _, [] => false
  | p :: ps, c :: cs => p = c && leadsWith ps cs

/-- Replace every non-overlapping occurrence of the nonempty pattern
`p0 :: pat`, scanning left to right (the semantics of Rust `str::replace`).
The recursion is driven by a fuel argument so that it is structural; every step
consumes at least one character, so fuel equal to the length of the scanned
list never runs out. -/
def replList (p0 : Char) (pat rep : List Char) : Nat → List Char → List Char
  | 0, l => l
  | _ + 1, [] => []
  | fuel + 1, c :: rest =>
    if p0 = c && leadsWith pat rest then
      rep ++ replList p0 pat rep fuel (rest.drop pat.length)
    else
      c :: replList p0 pat rep fuel rest

/-- String replacement with Rust `str::replace` semantics; the patterns used by
the code generator are all nonempty, an empty pattern leaves `s` unchanged. -/
def replaceAll (s pat rep : String) : String :=
  match pat.data with
  | [] => s
  | p :: ps => ⟨replList p ps rep.data s.data.length s.data⟩

/-- Template instantiation, from `operator.rs` (`Op::get_code`): substitute
`NAME`, `INDEX`, and the optional `INPUT_A` / `INPUT_B` placeholders, in the
source's order. -/
def Op.get_code (op : Op) (input_a input_b : Option String) : String :=
  let code := op.family.get_code_template
  let code := replaceAll code "NAME" op.name
  let code := replaceAll code "INDEX" (toString op.params.index)
  let code :=
    match input_a with
    | some a => replaceAll code "INPUT_A" a
    | none => code
  match input_b with
  | some b => replaceAll code "INPUT_B" b
  | none => code

/-- Available input slots, from `operator.rs` (`Connected for Op`,
`get_number_of_available_inputs`); the source computes this with a `usize`
subtraction, modelled by `Nat` truncated subtraction. -/
def Op.get_number_of_available_inputs (op : Op) : Nat :=
  op.family.get_input_capacity - op.active_inputs

/-- Connection callback, from `operator.rs` (`Connected for Op`, `on_connect`). -/
def Op.on_connect (op : Op) : Op :=
  { op with active_inputs := op.active_inputs + 1 }

/-- Disconnection callback, from `operator.rs` (`Connected for Op`,
`on_disconnect`); the source decrements a `usize`, modelled by `Nat` truncated
subtraction. -/
def Op.on_disconnect (op : Op) : Op :=
  { op with active_inputs := op.active_inputs - 1 }

/-- Modelled from the spec: per-node edge list of the operator graph — two
ordered sequences of neighbor indices, `inputs` (sources feeding this node) and
`outputs` (destinations this node feeds). The defining module of the generic
`Graph<Op, Connection>` used by `network.rs` is missing from the source tree. -/
structure Edges where
  inputs : List Nat
  outputs : List Nat
deriving DecidableEq, Repr

/-- Modelled from the spec: the operator graph — parallel arrays `nodes` and
`edges`, indexed identically. -/
structure Graph where
  nodes : List Op
  edges : List Edges
deriving DecidableEq, Repr

/-- Modelled from the spec: the empty graph (`Graph::new`). -/
def Graph.new : Graph := ⟨[], []⟩

/-- Edge list of node `n` (out-of-range lookups, which the source would never
perform without panicking, give the empty edge list). -/
def Graph.edgeAt (g : Graph) (n : Nat) : Edges :=
  g.edges.getD n ⟨[], []⟩

/-- Ordered list of sources feeding node `n` (`edges[n].inputs`). -/
def Graph.inputsOf (g : Graph) (n : Nat) : List Nat :=
  (g.edgeAt n).inputs

/-- Ordered list of destinations fed by node `n` (`edges[n].outputs`). -/
def Graph.outputsOf (g : Graph) (n : Nat) : List Nat :=
  (g.edgeAt n).outputs

/-- Family of the node at index `i` (index-guarded at every use site). -/
def Graph.famOf (g : Graph) (i : Nat) : OpFamily :=
  (g.nodes.getD i dfltOp).family

/-- Update the edge list at index `i` in place (`set` is a no-op out of range). -/
def updEdges (es : List Edges) (i : Nat) (f : Edges → Edges) : List Edges :=
  es.set i (f (es.getD i ⟨[], []⟩))

/-- Modelled from the spec: `add_node` appends the node together with an empty
edge list and returns its index (the new end of the array). -/
def Graph.add_node (g : Graph) (op : Op) : Graph :=
  { nodes := g.nodes ++ [op], edges := g.edges ++ [⟨[], []⟩] }

/-- Node lookup (`get_node`). -/
def Graph.get_node (g : Graph) (i : Nat) : Option Op :=
  g.nodes[i]?

/-- Modelled from the spec: `add_edge(src, dst)` succeeds only if `src != dst`,
`family(src).has_outputs()` and `family(dst).has_inputs()` (anything else is a
no-op); if `dst` is already at input capacity, the single oldest input edge of
`dst` (the first element of its `inputs` list) is evicted — its mirror entry is
erased from the evicted source's `outputs` — and replaced by the new edge. -/
def Graph.add_edge (g : Graph) (a b : Nat) : Graph :=
  match g.nodes[a]?, g.nodes[b]? with
  | some na, some nb =>
    if a ≠ b ∧ na.family.has_outputs ∧ nb.family.has_inputs then
      let ins := g.inputsOf b
      if nb.family.get_input_capacity ≤ ins.length then
        match ins with
        | [] => g
        | e :: tl =>
          let g1 : Graph :=
            { g with edges := updEdges g.edges e (fun E => { E with outputs := E.outputs.erase b }) }
          let g2 : Graph :=
            { g1 with edges := updEdges g1.edges b (fun E => { E with inputs := tl ++ [a] }) }
          { g2 with edges := updEdges g2.edges a (fun E => { E with outputs := E.outputs ++ [b] }) }
      else
        let g2 : Graph :=
          { g with edges := updEdges g.edges b (fun E => { E with inputs := ins ++ [a] }) }
        { g2 with edges := updEdges g2.edges a (fun E => { E with outputs := E.outputs ++ [b] }) }
    else g
  | _, _ => g

/-- Modelled from the spec: `remove_edge(src, dst)` removes the matching entries
from both adjacency lists if present, and is a no-op if the edge is absent. -/
def Graph.remove_edge (g : Graph) (a b : Nat) : Graph :=
  let es := updEdges g.edges a (fun E => { E with outputs := E.outputs.erase b })
  { g with edges := updEdges es b (fun E => { E with inputs := E.inputs.erase a }) }

/-- Remove position `k` from a list by moving the last element into slot `k`
and popping the end (Rust `Vec::swap_remove`). -/
def swapRemove (l : List α) (k : Nat) : List α :=
  match l.getLast? with
  | none => l
  | some x => (l.set k x).dropLast

/-- Edge-list cleanup applied on node removal: delete every reference to the
removed index `k`, rewrite every reference to the old `last` index to `k`. -/
def fixRefs (k last : Nat) (l : List Nat) : List Nat :=
  (l.filter (fun x => x ≠ k)).map (fun x => if x = last then k else x)

/-- Modelled from the spec: `remove_node(index)` removes the node and its edge
list via swap-to-end compaction (the last live node moves into the freed slot);
every remaining edge list is scanned — references to `index` are deleted and
references to the old index of the swapped-in node are rewritten to `index`.
Removal of a nonexistent index is a contract violation in the source (a panic);
the model leaves the graph unchanged there. -/
def Graph.remove_node (g : Graph) (k : Nat) : Graph :=
  if k < g.nodes.length then
    { nodes := swapRemove g.nodes k
      edges := (swapRemove g.edges k).map
        (fun E => ⟨fixRefs k (g.nodes.length - 1) E.inputs,
                   fixRefs k (g.nodes.length - 1) E.outputs⟩) }
  else g

/-- Pending work item of the traversal: visit a node (push its inputs first) or
emit an already-visited node into the post-order. -/
inductive TravTask
  | visit (n : Nat)
  | emit (n : Nat)
deriving DecidableEq, Repr

/-- Node carried by a traversal work item. -/
def TravTask.tnode : TravTask → Nat
  | .visit n => n
  | .emit n => n

/-- Traversal state: nodes already visited (duplicate suppression) and the
post-order built so far. -/
structure TravSt where
  visited : List Nat
  order : List Nat
deriving DecidableEq, Repr

/-- Modelled from the spec: the worklist form of the recursive post-order DFS of
`traverse` — a `visit n` on an unvisited in-range node marks it visited and
pushes `visit` tasks for `edges[n].inputs` (in order) followed by `emit n`;
revisits are skipped entirely, and `emit n` appends `n` to the post-order. The
recursion is driven by a fuel argument so that it is structural; `travFuel`
below can never run out, since every step consumes one task and the tasks ever
created are the initial one plus, for each first visit of a node `n` (each node
is expanded at most once), one task per entry of `edges[n].inputs` and one
`emit`. -/
def Graph.runTrav (g : Graph) : Nat → List TravTask → TravSt → TravSt
  | 0, _, s => s
  | _ + 1, [], s => s
  | fuel + 1, .visit n :: rest, s =>
    if n ∈ s.visited ∨ g.nodes.length ≤ n then
      g.runTrav fuel rest s
    else
      g.runTrav fuel ((g.inputsOf n).map .visit ++ .emit n :: rest)
        { visited := n :: s.visited, order := s.order }
  | fuel + 1, .emit n :: rest, s =>
    g.runTrav fuel rest { visited := s.visited, order := s.order ++ [n] }

/-- Upper bound on the number of traversal steps: the initial task, plus one
`emit` per node, plus one `visit` per input-list entry. -/
def Graph.travFuel (g : Graph) : Nat :=
  1 + g.nodes.length + ((g.edges.map (fun E => E.inputs.length)).sum)

/-- Modelled from the spec: `traverse(root)` — post-order walk from `root`
following input edges, each reachable node emitted once, at its first visit. -/
def Graph.traverse (g : Graph) (root : Nat) : List Nat :=
  (g.runTrav g.travFuel [.visit root] ⟨[], []⟩).order


/-- Editor state around the graph, from `network.rs` (`Network`); rendering and
asset state is dropped, and the process-wide name counter of `operator.rs` is
carried as the explicit field `counter`. -/
structure Network where
  graph : Graph
  selection : Option Nat
  root : Option Nat
  dirty : Bool
  params_index : Nat
  counter : Nat
deriving DecidableEq, Repr

/-- Fresh network, from `network.rs` (`Network::new`). -/
def Network.new : Network :=
  { graph := Graph.new
    selection := none
    root := none
    dirty := false
    params_index := 0
    counter := 0 }

/-- Dirty-flag accessor, from `network.rs` (`Network::dirty`). -/
def Network.dirtyFlag (net : Network) : Bool := net.dirty

/-- Clear the dirty flag, from `network.rs` (`Network::clean`). -/
def Network.clean (net : Network) : Network := { net with dirty := false }

/-- Add an op, from `network.rs` (`Network::add_op`): the new op's parameter
index is re-assigned from the network's `params_index` counter, which is then
incremented; the node is appended to the graph. -/
def Network.add_op (net : Network) (family : OpFamily) : Network :=
  let op := Op.new family net.counter
  let op := { op with params := { op.params with index := net.params_index } }
  { net with
    graph := net.graph.add_node op
    params_index := net.params_index + 1
    counter := net.counter + 1 }

/-- Connect two ops, from `network.rs` (`Network::add_connection`): delegate to
`Graph::add_edge`, then — only when the two indices are distinct and in range
(the `index_twice` `Pair::Both` case) — set `dirty` if a root is already
active, and set `root` and `dirty` when the destination is a `Render` op. -/
def Network.add_connection (net : Network) (a b : Nat) : Network :=
  let g := net.graph.add_edge a b
  if a ≠ b ∧ max a b < g.nodes.length then
    let net1 : Network :=
      { net with graph := g, dirty := if net.root.isSome then true else net.dirty }
    match g.nodes[b]? with
    | some nb =>
      if nb.family = .Primitive .Render then
        { net1 with root := some b, dirty := true }
      else net1
    | none => net1
  else { net with graph := g }

/-- Delete the selected op, from `network.rs` (`Network::delete_selected`): if
some edge in the selection's `outputs` hits the current root, clear `root` and
set `dirty`; then remove the node from the graph and clear the selection. -/
def Network.delete_selected (net : Network) : Network :=
  match net.selection with
  | none => net
  | some selected =>
    let net1 : Network :=
      match net.root with
      | some root =>
        if root ∈ net.graph.outputsOf selected then
          { net with dirty := true, root := none }
        else net
      | none => net
    { net1 with graph := net1.graph.remove_node selected, selection := none }

/-- Flat parameter buffer, from `network.rs` (`Network::gather_params`): one
4-tuple per node, pushed in node-storage order and uploaded verbatim. -/
def Network.gather_params (net : Network) : List ℚ :=
  (net.graph.nodes.map (fun node => node.params.data.toList)).flatten

/-- Fixed fragment-shader header (ray-march loop, SDF library, parameter SSBO
declaration, opening of `map`), verbatim from `shader_builder.rs` (`HEADER`). -/
def HEADER : String :=
  "\n        #version 430\n\n        layout (location = 0) in vec2 vs_texcoord;\n        layout (location = 0) out vec4 o_color;\n\n        uniform vec3 u_camera_position;\n        uniform vec3 u_camera_front;\n        uniform uint u_shading;\n        uniform float u_time;\n\n        // The SSBO that will contain a transform for each op in the\n        // graph. Note that according to the spec, there can only be\n        // one array of variable size per SSBO, which is why we use\n        // the convenience struct `transform` above.\n        //\n        // Here, we pack each transform into a single `vec4` where\n        // the xyz components represent a translation and the w\n        // component represents a uniform scale.\n        layout (std430, binding = 0) buffer params_block\n        \x7b\n            vec4 params[];\n        \x7d;\n\n        const int MAX_STEPS = 256;\n        const float MAX_TRACE_DISTANCE = 64.0;\n        const float MIN_HIT_DISTANCE = 0.001;\n\n        struct ray\n        \x7b\n            vec3 o;\n            vec3 d;\n        \x7d;\n\n        struct result\n        \x7b\n            float id;\n            float total_distance;\n            int total_steps;\n        \x7d;\n\n        mat3 lookat(in vec3 t, in vec3 p)\n        \x7b\n            vec3 k = normalize(t - p);\n            vec3 i = cross(k, vec3(0.0, 1.0, 0.0));\n            vec3 j = cross(i, k);\n            return mat3(i, j, k);\n        \x7d\n\n        vec3 domain_twist(in vec3 p, float t)\n        \x7b\n            float c = cos(t * p.y);\n            float s = sin(t * p.y);\n            mat2  m = mat2(c, -s, s, c);\n            vec3  q = vec3(m * p.xz, p.y);\n            return q;\n        \x7d\n\n        float op_union(float a, float b)\n        \x7b\n            return min(a, b);\n        \x7d\n\n        float op_subtract(float a, float b)\n        \x7b\n            return max(-a, b);\n        \x7d\n\n        float op_intersect(float a, float b)\n        \x7b\n            return max(a, b);\n        \x7d\n\n        float op_smooth_min(float a, float b, float k)\n        \x7b\n            float h = clamp(0.5 + 0.5 * (b - a) / k, 0.0, 1.0);\n            return mix(b, a, h) - k * h * (1.0 - h);\n        \x7d\n\n        float sdf_sphere(in vec3 p, in vec3 center, float radius)\n        \x7b\n            return length(center - p) - radius;\n        \x7d\n\n        float sdf_box(in vec3 p, in vec3 b)\n        \x7b\n          vec3 d = abs(p) - b;\n          return min(max(d.x, max(d.y, d.z)), 0.0) + length(max(d, 0.0));\n        \x7d\n\n        float sdf_plane(in vec3 p, in float h)\n        \x7b\n            return p.y - h;\n        \x7d\n\n        float sdf_torus(in vec3 p, in vec2 t)\n        \x7b\n            vec2 d = vec2(length(p.xz)- t.x, p.y);\n            return length(d) - t.y;\n        \x7d\n\n        vec2 map(in vec3 p)\n        \x7b\n            // start of generated cod-\n        "

/-- Fixed fragment-shader footer (closing of `map`, normal estimation, shading
modes, entry point), verbatim from `shader_builder.rs` (`FOOTER`). -/
def FOOTER : String :=
  "\n        \x7d\n\n        vec3 calculate_normal(in vec3 p)\n        \x7b\n            const vec3 e = vec3(0.001, 0.0, 0.0);\n            vec3 n = vec3(map(p + e.xyy).y - map(p - e.xyy).y,\t// Gradient x\n                          map(p + e.yxy).y - map(p - e.yxy).y,\t// Gradient y\n                          map(p + e.yyx).y - map(p - e.yyx).y); // Gradient z\n\n            return normalize(n);\n        \x7d\n\n        float ambient_occlusion(in vec3 p, in vec3 n)\n        \x7b\n            const float attenuation = 0.5;\n            float ao;\n            float accum = 0.0;\n            float scale = 1.0;\n            for(int step = 0; step < 5; step++)\n            \x7b\n                float hr = 0.01 + 0.02 * float(step * step);\n                vec3 aopos = n * hr + p;\n\n                float dist = map(aopos).y;\n                ao = -(dist - hr);\n                accum += ao * scale;\n                scale *= attenuation;\n            \x7d\n            ao = 1.0 - clamp(accum, 0.0, 1.0);\n\n            return ao;\n        \x7d\n\n        result raymarch(in ray r)\n        \x7b\n            result res = result(-1.0, 0.0, 0);\n            for (int i = 0; i < MAX_STEPS; ++i)\n            \x7b\n                vec3 p = r.o + r.d * res.total_distance;\n                vec2 hit_info = map(p);\n                float hit_id = hit_info.x;\n                float hit_dist = hit_info.y;\n                res.total_distance += hit_dist;\n\n                if (hit_dist < MIN_HIT_DISTANCE)\n                \x7b\n                    res.id = hit_id;\n                    break;\n                \x7d\n\n                if(res.total_distance > MAX_TRACE_DISTANCE)\n                \x7b\n                    res.total_distance = 0.0;\n                    break;\n                \x7d\n\n                res.total_steps++;\n            \x7d\n            return res;\n        \x7d\n\n        const uint SHADING_DEPTH = 0;\n        const uint SHADING_STEPS = 1;\n        const uint SHADING_AMBIENT_OCCLUSION = 2;\n        const uint SHADING_NORMALS = 3;\n        vec3 shading(in ray r, in result res)\n        \x7b\n            vec3 hit = r.o + r.d * res.total_distance;\n            if (u_shading == SHADING_DEPTH)\n            \x7b\n                float depth = hit.z / MAX_TRACE_DISTANCE;\n                return vec3(pow(depth, 0.5));\n            \x7d\n            else if (u_shading == SHADING_STEPS)\n            \x7b\n                float pct = float(res.total_steps) / MAX_STEPS;\n                const vec3 c_a = vec3(0.0, 0.0, 1.0);\n                const vec3 c_b = vec3(0.0, 1.0, 1.0);\n                const vec3 c_c = vec3(1.0, 1.0, 0.0);\n                const vec3 c_d = vec3(1.0, 0.0, 0.0);\n\n                const float a = 0.00;\n                const float b = 0.33;\n                const float c = 0.66;\n                const float d = 1.00;\n\n                vec3 color = mix(c_a, c_b, smoothstep(a, b, pct));\n                color = mix(color, c_c, smoothstep(b, c, pct));\n                color = mix(color, c_d, smoothstep(c, d, pct));\n                return color;\n            \x7d\n            else\n            \x7b\n                // calculate normals\n                vec3 n = calculate_normal(hit);\n                if (u_shading == SHADING_AMBIENT_OCCLUSION)\n                \x7b\n                    const vec3 l = normalize(vec3(1.0, 5.0, 0.0));\n                    float d = max(0.0, dot(n, l));\n                    float ao = ambient_occlusion(hit, n);\n                    return vec3(pow(ao, 3.0));\n                \x7d\n                else\n                \x7b\n                    return n * 0.5 + 0.5;\n                \x7d\n            \x7d\n        \x7d\n\n        ray generate_ray()\n        \x7b\n            // uv-coordinates in the range [-1..1]\n            vec2 uv = vs_texcoord * 2.0 - 1.0;\n\n            const float PI = 3.14159265359;\n            const float fov = 50.0;\n            const float fovx = PI * fov / 360.0;\n            float fovy = fovx * 1.0; // iResolution.y/iResolution.x;\n            float ulen = tan(fovx);\n            float vlen = tan(fovy);\n\n            const vec3 camera_up = vec3(0.0, 1.0, 0.0);\n            vec2 cam_uv = uv;\n            vec3 camera_right = normalize(cross(camera_up, u_camera_front));\n            vec3 pixel = u_camera_position + u_camera_front + camera_right * cam_uv.x * ulen + camera_up * cam_uv.y * vlen;\n\n            vec3 ro = u_camera_position;\n            vec3 rd = normalize(pixel - u_camera_position);\n\n            return ray(ro, rd);\n        \x7d\n\n        void main()\n        \x7b\n            ray r = generate_ray();\n            result res = raymarch(r);\n\n            const vec3 background = vec3(0.0);\n            vec3 color = background;\n            switch(int(res.id))\n            \x7b\n                case 0:\n                    color = shading(r, res);\n                    break;\n                case 1:\n                    // Placeholder\n                    break;\n                case 2:\n                    // Placeholder\n                    break;\n                    // etc...\n                default:\n                    color = background;\n                    break;\n            \x7d\n\n            o_color = vec4(color, 1.0);\n        \x7d"


/-- Per-node fragment of the `map` body, from `shader_builder.rs`
(`build_sources`, the `match node.data.family` arm): `Root` takes no input;
other domain ops and generator primitives require one input; combinators
require two; `Render` requires one and gets the synthesized
`return vec2(0.0, NAME);` appended after its rendered template. A missing
requirement yields `none` (build failure). The source's `unwrap()` on a
dangling input index would panic; the model returns `none` there, a case no
well-formed graph reaches. -/
def renderNode (g : Graph) (index : Nat) (op : Op) : Option String :=
  match op.family with
  | .Domain .Root => some (op.get_code none none)
  | .Domain _ =>
    match g.inputsOf index with
    | [] => none
    | a :: _ =>
      match g.get_node a with
      | some na => some (op.get_code (some na.name) none)
      | none => none
  | .Primitive .Sphere | .Primitive .Box | .Primitive .Plane | .Primitive .Torus =>
    match g.inputsOf index with
    | [] => none
    | a :: _ =>
      match g.get_node a with
      | some na => some (op.get_code (some na.name) none)
      | none => none
  | .Primitive .Union | .Primitive .Subtraction | .Primitive .Intersection
  | .Primitive .SmoothMinimum =>
    match g.inputsOf index with
    | a :: b :: _ =>
      (match g.get_node a, g.get_node b with
       | some na, some nb => some (op.get_code (some na.name) (some nb.name))
       | _, _ => none)
    | _ => none
  | .Primitive .Render =>
    match g.inputsOf index with
    | [] => none
    | a :: _ =>
      match g.get_node a with
      | some na =>
        some (op.get_code (some na.name) none ++ "\n" ++ "\t"
              ++ "return vec2(0.0, " ++ op.name ++ ");")
      | none => none

/-- Body accumulation loop of `build_sources`: indices without a node are
skipped (`if let Some(node)`), each rendered fragment is prefixed with a tab
and suffixed with a newline, and any failing fragment aborts with `none`. -/
def buildBody (g : Graph) : List Nat → String → Option String
  | [], acc => some acc
  | index :: rest, acc =>
    match g.get_node index with
    | none => buildBody g rest acc
    | some node =>
      match renderNode g index node with
      | none => none
      | some formatted => buildBody g rest (acc ++ "\t" ++ formatted ++ "\n")

/-- Generated fragment-shader source, from `shader_builder.rs`
(`build_sources`): the accumulated `map` body wrapped between the fixed
`HEADER` and `FOOTER`. The source hands the string to `Program::new`; the
model's value is the fragment source itself. -/
def build_sources (g : Graph) (indices : List Nat) : Option String :=
  (buildBody g indices "").map (fun code => (HEADER ++ code) ++ FOOTER)

/-- Rebuild step of the main loop, from `main.rs` (lines 250-260): with a root
set, traverse from it and build the sources; with no root, the preview program
is set to `None` without building. -/
def rebuild (net : Network) : Option String :=
  match net.root with
  | some root => build_sources net.graph (net.graph.traverse root)
  | none => none


/-- Minimum number of connected inputs each family must have for the generator
to succeed, exactly as checked by the branches of `build_sources`: `Root` none,
other domain ops one, generator primitives one, combinators two, `Render` one. -/
def minInputs : OpFamily → Nat
  | .Domain .Root => 0
  | .Domain _ => 1
  | .Primitive .Union => 2
  | .Primitive .Subtraction => 2
  | .Primitive .Intersection => 2
  | .Primitive .SmoothMinimum => 2
  | .Primitive _ => 1

/-- Well-formed graph: parallel arrays of equal length and every edge-list
entry in range. -/
def Graph.wf (g : Graph) : Prop :=
  g.edges.length = g.nodes.length ∧
  ∀ i, i < g.edges.length →
    (∀ m ∈ g.inputsOf i, m < g.nodes.length) ∧ (∀ m ∈ g.outputsOf i, m < g.nodes.length)

instance (g : Graph) : Decidable g.wf := by
  unfold Graph.wf
  infer_instance

/-- One dependency step of the traversal: `b` feeds `a`. -/
def Graph.stepRel (g : Graph) (a b : Nat) : Prop :=
  b ∈ g.inputsOf a

/-- Acyclic graph: no nonempty dependency path from a node back to itself. -/
def Graph.Acyclic (g : Graph) : Prop :=
  ∀ n, ¬ Relation.TransGen g.stepRel n n

/-- Dependency-ordered sequence: every input of every entry appears strictly
earlier in the sequence. -/
def GoodOrder (g : Graph) (l : List Nat) : Prop :=
  ∀ i (h : i < l.length), ∀ m ∈ g.inputsOf (l.get ⟨i, h⟩), m ∈ l.take i

/-- Nodes of the pending `emit` tasks, in work-list order. -/
def emitsOf : List TravTask → List Nat
  | [] => []
  | .visit _ :: rest => emitsOf rest
  | .emit n :: rest => n :: emitsOf rest

/-- Node of the first pending `emit` task, if any. -/
def firstEmit : List TravTask → Option Nat
  | [] => none
  | .visit _ :: rest => firstEmit rest
  | .emit n :: _ => some n

/-- Structural work-list invariant: the node of every task is an input of the
next `emit` node after it (so the pending `emit` nodes form the grey DFS path,
consecutive ones linked by an input edge, and every pending `visit` before an
`emit` is an input of that `emit` node). -/
def WorkOK (g : Graph) : List TravTask → Prop
  | [] => True
  | t :: rest =>
    (∀ q, firstEmit rest = some q → t.tnode ∈ g.inputsOf q) ∧ WorkOK g rest

/-- Accounting invariant for pending `emit` tasks: every input of an `emit`
node is already emitted (`order`), or still pending as an earlier `visit` task
(`seen` accumulates the visits walked past), or is itself a pending `emit`
node (`emitsAll`). -/
def EmitsOKAux (g : Graph) (order emitsAll : List Nat) : List TravTask → List Nat → Prop
  | [], _ => True
  | .visit m :: rest, seen => EmitsOKAux g order emitsAll rest (m :: seen)
  | .emit q :: rest, seen =>
    (∀ m ∈ g.inputsOf q, m ∈ order ∨ m ∈ seen ∨ m ∈ emitsAll) ∧
      EmitsOKAux g order emitsAll rest seen

/-- Chain of adjacent input edges along a list (each element is an input of its
successor). -/
def AdjChain (g : Graph) : List Nat → Prop
  | [] => True
  | [_] => True
  | x :: y :: t => x ∈ g.inputsOf y ∧ AdjChain g (y :: t)

/-- Full invariant of the traversal work list. -/
def TravInv (g : Graph) (work : List TravTask) (s : TravSt) : Prop :=
  GoodOrder g s.order
  ∧ (∀ x, x ∈ s.visited ↔ x ∈ s.order ∨ x ∈ emitsOf work)
  ∧ WorkOK g work
  ∧ EmitsOKAux g s.order (emitsOf work) work []
  ∧ (∀ t ∈ work, t.tnode < g.nodes.length)

/-- Graph-mutation events reaching the edge structure: the connect, disconnect
and delete operations of the editor (spec §4.3), plus node creation. -/
inductive GAction
  | addNode (op : Op)
  | addEdge (a b : Nat)
  | removeEdge (a b : Nat)
  | removeNode (k : Nat)

/-- Apply one mutation event. -/
def applyAction (g : Graph) : GAction → Graph
  | .addNode op => g.add_node op
  | .addEdge a b => g.add_edge a b
  | .removeEdge a b => g.remove_edge a b
  | .removeNode k => g.remove_node k

/-- Graph reached from the empty graph by a sequence of mutation events. -/
def runActions (acts : List GAction) : Graph :=
  acts.foldl applyAction Graph.new

/-- Capacity invariant P1: no input list longer than its family's capacity. -/
def capOK (g : Graph) : Prop :=
  ∀ i, i < g.nodes.length →
    (g.inputsOf i).length ≤ (g.nodes.getD i dfltOp).family.get_input_capacity

/-- Multiset form of bidirectional consistency P2: each edge appears in the
source's `outputs` exactly as often as in the destination's `inputs`. -/
def countBidir (g : Graph) : Prop :=
  ∀ a b, (g.outputsOf a).count b = (g.inputsOf b).count a

/-- Combined reachable-state invariant of the graph container. -/
def GInv (g : Graph) : Prop :=
  g.wf ∧ countBidir g ∧ capOK g

/-- Naive substring search on character lists. -/
def subList (pat : List Char) : List Char → Bool
  | [] => leadsWith pat []
  | c :: rest => leadsWith pat (c :: rest) || subList pat rest

/-- Substring test on strings. -/
def containsSub (s pat : String) : Bool :=
  subList pat.data s.data

/-- Suffix test on strings. -/
def strEndsWith (s t : String) : Bool :=
  leadsWith t.data.reverse s.data.reverse

/-- Layout property of the flat parameter buffer asserted by the design: the
four entries starting at `slot_index * 4` are the node's parameter data. -/
def paramsLayoutOK (net : Network) : Prop :=
  ∀ i (h : i < net.graph.nodes.length),
    ((net.gather_params.drop ((net.graph.nodes.get ⟨i, h⟩).params.index * 4)).take 4)
      = (net.graph.nodes.get ⟨i, h⟩).params.data.toList

/-- Scenario A as written in the design: a sphere generator wired straight into
the render sink, with no root domain feeding the sphere. -/
def scenarioA : Network :=
  ((Network.new.add_op (.Primitive .Sphere)).add_op (.Primitive .Render)).add_connection 0 1

/-- Scenario A completed into a buildable graph: a root domain op feeds the
sphere, which feeds the render sink. -/
def scenarioAFixed : Network :=
  (((((Network.new.add_op (.Domain .Root)).add_op (.Primitive .Sphere)).add_op
      (.Primitive .Render)).add_connection 0 1)).add_connection 1 2

/-- Scenario D: the render node's sole input is never connected, so no root is
ever designated. -/
def scenarioD : Network :=
  (Network.new.add_op (.Primitive .Sphere)).add_op (.Primitive .Render)

/-- Scenario C: three sphere generators and a union combinator; the first two
spheres are connected into the union, filling it to capacity. -/
def scenarioC : Network :=
  (((((Network.new.add_op (.Primitive .Sphere)).add_op (.Primitive .Sphere)).add_op
      (.Primitive .Sphere)).add_op (.Primitive .Union)).add_connection 0 3).add_connection 1 3

/-- Union combinator with a single connected input, an incomplete graph. -/
def unionShort : Network :=
  ((Network.new.add_op (.Primitive .Sphere)).add_op (.Primitive .Union)).add_connection 0 1

/-- Two ops where the first (the current selection) is then deleted: the
swap-in moves the render op to slot 0 while its slot index stays 1. -/
def deletedNet : Network :=
  { scenarioD with selection := some 0 }.delete_selected

/-- Union op with one recorded active input, a sample for the counter facts. -/
def sampleUnionOp : Op := (Op.new (.Primitive .Union) 0).on_connect

theorem leadsWith_append (pat l b : List Char)
    (h : leadsWith pat l = true) : leadsWith pat (l ++ b) = true := by
  induction pat generalizing l with
  | nil => rfl
  | cons p ps ih =>
    cases l with
    | nil => simp [leadsWith] at h
    | cons c cs =>
      simp only [leadsWith, Bool.and_eq_true, decide_eq_true_eq] at h
      simp only [List.cons_append, leadsWith, Bool.and_eq_true, decide_eq_true_eq]
      exact ⟨h.1, ih cs h.2⟩

theorem subList_append_right (pat a b : List Char)
    (h : subList pat b = true) : subList pat (a ++ b) = true := by
  induction a with
  | nil => simpa using h
  | cons c rest ih =>
    simp only [List.cons_append, subList, Bool.or_eq_true]
    exact Or.inr ih

theorem subList_append_left (pat a b : List Char)
    (h : subList pat a = true) : subList pat (a ++ b) = true := by
  induction a with
  | nil =>
    cases pat with
    | nil =>
      cases b with
      | nil => simpa using h
      | cons x xs => simp [subList, leadsWith]
    | cons p ps => simp [subList, leadsWith] at h
  | cons c rest ih =>
    simp only [subList, Bool.or_eq_true] at h
    rcases h with h | h
    · simp only [List.cons_append, subList, Bool.or_eq_true]
      exact Or.inl (leadsWith_append pat (c :: rest) b h)
    · simp only [List.cons_append, subList, Bool.or_eq_true]
      exact Or.inr (ih h)

theorem renderNode_none_of_short (g : Graph) (i : Nat) (op : Op)
    (h : (g.inputsOf i).length < minInputs op.family) :
    renderNode g i op = none := by
  rcases hf : op.family with d | p
  · cases d with
    | Root => simp [minInputs, hf] at h
    | Transform =>
      cases hin : g.inputsOf i with
      | nil => simp [renderNode, hf, hin]
      | cons a tl => simp [minInputs, hf, hin] at h
    | Twist =>
      cases hin : g.inputsOf i with
      | nil => simp [renderNode, hf, hin]
      | cons a tl => simp [minInputs, hf, hin] at h
    | Bend =>
      cases hin : g.inputsOf i with
      | nil => simp [renderNode, hf, hin]
      | cons a tl => simp [minInputs, hf, hin] at h
  · cases p with
    | Sphere =>
      cases hin : g.inputsOf i with
      | nil => simp [renderNode, hf, hin]
      | cons a tl => simp [minInputs, hf, hin] at h
    | Box =>
      cases hin : g.inputsOf i with
      | nil => simp [renderNode, hf, hin]
      | cons a tl => simp [minInputs, hf, hin] at h
    | Plane =>
      cases hin : g.inputsOf i with
      | nil => simp [renderNode, hf, hin]
      | cons a tl => simp [minInputs, hf, hin] at h
    | Torus =>
      cases hin : g.inputsOf i with
      | nil => simp [renderNode, hf, hin]
      | cons a tl => simp [minInputs, hf, hin] at h
    | Render =>
      cases hin : g.inputsOf i with
      | nil => simp [renderNode, hf, hin]
      | cons a tl => simp [minInputs, hf, hin] at h
    | Union =>
      cases hin : g.inputsOf i with
      | nil => simp [renderNode, hf, hin]
      | cons a tl =>
        cases tl with
        | nil => simp [renderNode, hf, hin]
        | cons b tl2 =>
          simp only [minInputs, hf, hin, List.length_cons] at h
          omega
    | Subtraction =>
      cases hin : g.inputsOf i with
      | nil => simp [renderNode, hf, hin]
      | cons a tl =>
        cases tl with
        | nil => simp [renderNode, hf, hin]
        | cons b tl2 =>
          simp only [minInputs, hf, hin, List.length_cons] at h
          omega
    | Intersection =>
      cases hin : g.inputsOf i with
      | nil => simp [renderNode, hf, hin]
      | cons a tl =>
        cases tl with
        | nil => simp [renderNode, hf, hin]
        | cons b tl2 =>
          simp only [minInputs, hf, hin, List.length_cons] at h
          omega
    | SmoothMinimum =>
      cases hin : g.inputsOf i with
      | nil => simp [renderNode, hf, hin]
      | cons a tl =>
        cases tl with
        | nil => simp [renderNode, hf, hin]
        | cons b tl2 =>
          simp only [minInputs, hf, hin, List.length_cons] at h
          omega

theorem buildBody_none (g : Graph) (i : Nat) (op : Op)
    (hop : g.get_node i = some op)
    (hshort : (g.inputsOf i).length < minInputs op.family) :
    ∀ l : List Nat, i ∈ l → ∀ acc : String, buildBody g l acc = none := by
  intro l
  induction l with
  | nil => intro h; cases h
  | cons j rest ih =>
    intro hmem acc
    rcases List.mem_cons.mp hmem with rfl | hmem2
    · simp [buildBody, hop, renderNode_none_of_short g i op hshort]
    · cases hj : g.get_node j with
      | none =>
        simp only [buildBody, hj]
        exact ih hmem2 acc
      | some nodej =>
        cases hr : renderNode g j nodej with
        | none => simp [buildBody, hj, hr]
        | some f =>
          simp only [buildBody, hj, hr]
          exact ih hmem2 _

/-- C10: for every op whose `active_inputs` count does not exceed its family's
input capacity, the `usize` subtraction in `get_number_of_available_inputs`
cannot underflow — the truncated difference is the exact integer difference —
and `on_disconnect`'s decrement cannot underflow provided `active_inputs ≥ 1`
when it is called. -/
theorem connected_counts_no_underflow :
    (∀ op : Op, op.active_inputs ≤ op.family.get_input_capacity →
      op.get_number_of_available_inputs + op.active_inputs
          = op.family.get_input_capacity
      ∧ (op.get_number_of_available_inputs : ℤ)
          = (op.family.get_input_capacity : ℤ) - (op.active_inputs : ℤ))
    ∧ (∀ op : Op, 1 ≤ op.active_inputs →
      op.on_disconnect.active_inputs + 1 = op.active_inputs
      ∧ (op.on_disconnect.active_inputs : ℤ) = (op.active_inputs : ℤ) - 1) := by
  constructor
  · intro op h
    unfold Op.get_number_of_available_inputs
    omega
  · intro op h
    unfold Op.on_disconnect
    simp only
    omega

theorem connected_counts_no_underflow_witness :
    (sampleUnionOp.active_inputs ≤ sampleUnionOp.family.get_input_capacity)
    ∧ (sampleUnionOp.get_number_of_available_inputs + sampleUnionOp.active_inputs
          = sampleUnionOp.family.get_input_capacity
        ∧ (sampleUnionOp.get_number_of_available_inputs : ℤ)
          = (sampleUnionOp.family.get_input_capacity : ℤ) - (sampleUnionOp.active_inputs : ℤ))
    ∧ (1 ≤ sampleUnionOp.active_inputs)
    ∧ (sampleUnionOp.on_disconnect.active_inputs + 1 = sampleUnionOp.active_inputs
        ∧ (sampleUnionOp.on_disconnect.active_inputs : ℤ)
          = (sampleUnionOp.active_inputs : ℤ) - 1) :=
  ⟨by decide,
   connected_counts_no_underflow.1 sampleUnionOp (by decide),
   by decide,
   connected_counts_no_underflow.2 sampleUnionOp (by decide)⟩

/-- C5: `build_sources` is deterministic — it is a pure function of the node
array, the ordered edge lists and the root, so two builds of an unmodified
graph from the same root produce byte-identical source strings, with no
dependence on any hash-iteration order (the adjacency lists are ordered
sequences). -/
theorem build_sources_deterministic (g1 g2 : Graph) (root : Nat)
    (hn : g1.nodes = g2.nodes) (he : g1.edges = g2.edges) :
    build_sources g1 (g1.traverse root) = build_sources g2 (g2.traverse root) := by
  obtain ⟨n1, e1⟩ := g1
  obtain ⟨n2, e2⟩ := g2
  cases hn
  cases he
  rfl

theorem build_sources_deterministic_witness :
    scenarioAFixed.graph.nodes = scenarioAFixed.graph.nodes
    ∧ build_sources scenarioAFixed.graph (scenarioAFixed.graph.traverse 2)
        = build_sources scenarioAFixed.graph (scenarioAFixed.graph.traverse 2) :=
  ⟨rfl, build_sources_deterministic scenarioAFixed.graph scenarioAFixed.graph 2 rfl rfl⟩

/-- C9: evaluation at the failing input. After creating a sphere and a render
op and deleting the sphere (the selection), the swapped-in render op keeps the
slot index 1 it was assigned at creation (the source's index-reset is an
unimplemented TODO), while `gather_params` lays its 4-tuple out at offset 0 of
a 4-entry buffer; the asserted layout `buffer[slot*4 .. slot*4+4] = data`
therefore fails. -/
theorem gather_params_layout_violated :
    (deletedNet.graph.nodes.getD 0 dfltOp).params.index = 1
    ∧ deletedNet.gather_params.length = 4
    ∧ ¬ paramsLayoutOK deletedNet := by
  refine ⟨by rfl, by rfl, fun h => ?_⟩
  have h0 := h 0 (by decide)
  revert h0
  decide

/-- C4 counterexample: Scenario A exactly as stated — a sphere generator with
no input of its own wired into the render sink — does not build: the generator
requires one connected input on the sphere and the build returns `None`. -/
theorem scenarioA_build_none : rebuild scenarioA = none := by rfl

/-- C4 (amended): with the sphere fed by a root domain op, the build succeeds:
the generated source is header ++ body ++ footer, the body (hence the source)
contains "sdf_sphere", and the `map` function ends with the synthesized
`return vec2(0.0, render_2);` — named after the render node — which the
generator appends after the rendered render-template and which is not part of
the template itself. -/
theorem scenarioA_fixed_build :
    ∃ code : String,
      rebuild scenarioAFixed = some ((HEADER ++ code) ++ FOOTER)
      ∧ containsSub code "sdf_sphere" = true
      ∧ containsSub ((HEADER ++ code) ++ FOOTER) "sdf_sphere" = true
      ∧ strEndsWith code "return vec2(0.0, render_2);\n" = true
      ∧ containsSub (OpFamily.Primitive .Render).get_code_template "return" = false := by
  refine ⟨"\t\n                    vec3 p_root_0 = p;\n                    float s_root_0 = 1.0;\n\tfloat sphere_1 = sdf_sphere(p_root_0, vec3(0.0), 1.0) * s_root_0;\n\tfloat render_2 = sphere_1;\n\treturn vec2(0.0, render_2);\n",
    by rfl, by decide, ?_, by decide, by decide⟩
  show subList _ _ = true
  have hdata : ((HEADER ++ "\t\n                    vec3 p_root_0 = p;\n                    float s_root_0 = 1.0;\n\tfloat sphere_1 = sdf_sphere(p_root_0, vec3(0.0), 1.0) * s_root_0;\n\tfloat render_2 = sphere_1;\n\treturn vec2(0.0, render_2);\n") ++ FOOTER).data
      = HEADER.data ++ ("\t\n                    vec3 p_root_0 = p;\n                    float s_root_0 = 1.0;\n\tfloat sphere_1 = sdf_sphere(p_root_0, vec3(0.0), 1.0) * s_root_0;\n\tfloat render_2 = sphere_1;\n\treturn vec2(0.0, render_2);\n".data ++ FOOTER.data) := by
    rw [String.data_append, String.data_append, List.append_assoc]
  rw [hdata]
  apply subList_append_right
  apply subList_append_left
  decide

/-- C1: the rebuild step yields `None` (a build failure, never a panic)
whenever the root is unset; `build_sources` yields `None` whenever the
traversal ordering contains a node with fewer connected inputs than the
minimum its family's branch requires (one for non-root domain ops, generator
primitives and the render sink, two for the combinators); and in particular
Scenario D — a render node whose sole input is never connected, so no root is
ever designated — builds to `None`. -/
theorem build_fails_on_incomplete :
    (∀ net : Network, net.root = none → rebuild net = none)
    ∧ (∀ (g : Graph) (indices : List Nat) (i : Nat) (op : Op),
        i ∈ indices → g.get_node i = some op →
        (g.inputsOf i).length < minInputs op.family →
        build_sources g indices = none)
    ∧ rebuild scenarioD = none := by
  refine ⟨?_, ?_, by rfl⟩
  · intro net h
    unfold rebuild
    rw [h]
  · intro g indices i op hi hop hshort
    unfold build_sources
    rw [buildBody_none g i op hop hshort indices hi ""]
    rfl

theorem build_fails_on_incomplete_witness :
    (unionShort.graph.get_node 1 = some (unionShort.graph.nodes.getD 1 dfltOp)
      ∧ (unionShort.graph.inputsOf 1).length
          < minInputs (unionShort.graph.nodes.getD 1 dfltOp).family)
    ∧ build_sources unionShort.graph [1] = none
    ∧ scenarioD.root = none
    ∧ rebuild scenarioD = none :=
  ⟨⟨by rfl, by decide⟩,
   build_fails_on_incomplete.2.1 unionShort.graph [1] 1
     (unionShort.graph.nodes.getD 1 dfltOp) (by decide) (by rfl) (by decide),
   rfl,
   build_fails_on_incomplete.1 scenarioD rfl⟩

theorem updEdges_length (es : List Edges) (i : Nat) (f : Edges → Edges) :
    (updEdges es i f).length = es.length := by
  simp [updEdges]

theorem getD_updEdges_self (es : List Edges) (i : Nat) (f : Edges → Edges)
    (h : i < es.length) :
    (updEdges es i f).getD i ⟨[], []⟩ = f (es.getD i ⟨[], []⟩) := by
  simp [updEdges, List.getD, List.getElem?_set_self, h]

theorem getD_updEdges_ne (es : List Edges) (i j : Nat) (f : Edges → Edges)
    (h : i ≠ j) :
    (updEdges es i f).getD j ⟨[], []⟩ = es.getD j ⟨[], []⟩ := by
  simp [updEdges, List.getD, List.getElem?_set_ne h]

/-- C3: eviction on a full destination. If `dst` is at its family's input
capacity, `add_edge(src, dst)` evicts the first (oldest) entry `e` of `dst`'s
inputs and replaces it by `src`: afterwards the inputs length still equals the
capacity, the new edge is present in both mirror lists, and the evicted
source's `outputs` no longer contains `dst` (hypotheses `e ≠ src` and a single
mirror entry match the scenario; the spec does not specify parallel duplicate
edges or re-connecting the evicted source itself). -/
theorem add_edge_evicts (g : Graph) (a b e : Nat) (tl : List Nat)
    (hlen : g.edges.length = g.nodes.length)
    (hab : a ≠ b) (ha : a < g.nodes.length) (hb : b < g.nodes.length)
    (hout : (g.nodes.getD a dfltOp).family.has_outputs = true)
    (hin : (g.nodes.getD b dfltOp).family.has_inputs = true)
    (hfull : (g.inputsOf b).length = (g.nodes.getD b dfltOp).family.get_input_capacity)
    (hhead : g.inputsOf b = e :: tl)
    (hea : e ≠ a)
    (hcnt : (g.outputsOf e).count b = 1) :
    ((g.add_edge a b).inputsOf b).length
        = (g.nodes.getD b dfltOp).family.get_input_capacity
    ∧ a ∈ (g.add_edge a b).inputsOf b
    ∧ b ∈ (g.add_edge a b).outputsOf a
    ∧ b ∉ (g.add_edge a b).outputsOf e := by
  have hA : g.nodes[a]? = some (g.nodes.getD a dfltOp) := by
    simp [List.getD, List.getElem?_eq_getElem ha]
  have hB : g.nodes[b]? = some (g.nodes.getD b dfltOp) := by
    simp [List.getD, List.getElem?_eq_getElem hb]
  have hcond : a ≠ b ∧ (g.nodes.getD a dfltOp).family.has_outputs
      ∧ (g.nodes.getD b dfltOp).family.has_inputs := ⟨hab, hout, hin⟩
  have hcap : (g.nodes.getD b dfltOp).family.get_input_capacity ≤ (g.inputsOf b).length := by
    omega
  have hstep : g.add_edge a b =
      (let g1 : Graph :=
        { g with edges := updEdges g.edges e (fun E => { E with outputs := E.outputs.erase b }) }
       let g2 : Graph :=
        { g1 with edges := updEdges g1.edges b (fun E => { E with inputs := tl ++ [a] }) }
       { g2 with edges := updEdges g2.edges a (fun E => { E with outputs := E.outputs ++ [b] }) }) := by
    unfold Graph.add_edge
    rw [hA, hB]
    simp only [if_pos hcond, hhead, if_pos (hhead ▸ hcap)]
  rw [hstep]
  have hblen : b < g.edges.length := by omega
  have halen : a < g.edges.length := by omega
  have helen : e < g.edges.length := by
    by_contra hcon
    have hdef : g.edges.getD e ⟨[], []⟩ = ⟨[], []⟩ := by
      simp [List.getD, List.getElem?_eq_none (by omega : g.edges.length ≤ e)]
    rw [Graph.outputsOf, Graph.edgeAt, hdef] at hcnt
    simp at hcnt
  -- inputs of b in the final graph
  have hIb : ((let g1 : Graph :=
        { g with edges := updEdges g.edges e (fun E => { E with outputs := E.outputs.erase b }) }
       let g2 : Graph :=
        { g1 with edges := updEdges g1.edges b (fun E => { E with inputs := tl ++ [a] }) }
       { g2 with edges := updEdges g2.edges a (fun E => { E with outputs := E.outputs ++ [b] }) }) : Graph).inputsOf b
      = tl ++ [a] := by
    simp only [Graph.inputsOf, Graph.edgeAt]
    rw [getD_updEdges_ne _ a b _ hab]
    rw [getD_updEdges_self]
    · rw [updEdges_length]; exact hblen
  have hOa : ((let g1 : Graph :=
        { g with edges := updEdges g.edges e (fun E => { E with outputs := E.outputs.erase b }) }
       let g2 : Graph :=
        { g1 with edges := updEdges g1.edges b (fun E => { E with inputs := tl ++ [a] }) }
       { g2 with edges := updEdges g2.edges a (fun E => { E with outputs := E.outputs ++ [b] }) }) : Graph).outputsOf a
      = ((updEdges g.edges e (fun E => { E with outputs := E.outputs.erase b })).getD a ⟨[], []⟩).outputs ++ [b] := by
    simp only [Graph.outputsOf, Graph.edgeAt]
    rw [getD_updEdges_self]
    · rw [getD_updEdges_ne _ b a _ (Ne.symm hab)]
    · rw [updEdges_length, updEdges_length]; exact halen
  have hOe : ((let g1 : Graph :=
        { g with edges := updEdges g.edges e (fun E => { E with outputs := E.outputs.erase b }) }
       let g2 : Graph :=
        { g1 with edges := updEdges g1.edges b (fun E => { E with inputs := tl ++ [a] }) }
       { g2 with edges := updEdges g2.edges a (fun E => { E with outputs := E.outputs ++ [b] }) }) : Graph).outputsOf e
      = (g.outputsOf e).erase b := by
    simp only [Graph.outputsOf, Graph.edgeAt]
    rw [getD_updEdges_ne _ a e _ (fun h => hea h.symm)]
    by_cases heb : e = b
    · subst heb
      rw [getD_updEdges_self]
      · rw [getD_updEdges_self _ _ _ hblen]
      · rw [updEdges_length]; exact hblen
    · rw [getD_updEdges_ne _ b e _ (fun h => heb h.symm)]
      rw [getD_updEdges_self _ _ _ helen]
  refine ⟨?_, ?_, ?_, ?_⟩
  · rw [hIb]
    have : (e :: tl).length = (g.nodes.getD b dfltOp).family.get_input_capacity := by
      rw [← hhead]; exact hfull
    simp at this ⊢
    omega
  · rw [hIb]; simp
  · rw [hOa]; simp
  · rw [hOe]
    intro hmem
    have h2 : 0 < ((g.outputsOf e).erase b).count b := List.count_pos_iff.mpr hmem
    have h3 := List.count_erase_self b (g.outputsOf e)
    omega

theorem add_edge_evicts_witness :
    (scenarioC.graph.inputsOf 3 = 0 :: [1]
      ∧ (scenarioC.graph.inputsOf 3).length
          = (scenarioC.graph.nodes.getD 3 dfltOp).family.get_input_capacity
      ∧ (scenarioC.graph.outputsOf 0).count 3 = 1)
    ∧ (((scenarioC.graph.add_edge 2 3).inputsOf 3).length
          = (scenarioC.graph.nodes.getD 3 dfltOp).family.get_input_capacity
        ∧ 2 ∈ (scenarioC.graph.add_edge 2 3).inputsOf 3
        ∧ 3 ∈ (scenarioC.graph.add_edge 2 3).outputsOf 2
        ∧ 3 ∉ (scenarioC.graph.add_edge 2 3).outputsOf 0) :=
  ⟨⟨by rfl, by rfl, by rfl⟩,
   add_edge_evicts scenarioC.graph 2 3 0 [1] (by rfl) (by decide) (by decide) (by decide)
     (by rfl) (by rfl) (by rfl) (by rfl) (by decide) (by rfl)⟩

theorem swapRemove_length {α} (l : List α) (k : Nat) (hl : l ≠ []) :
    (swapRemove l k).length = l.length - 1 := by
  unfold swapRemove
  cases hx : l.getLast? with
  | none => exact absurd (List.getLast?_eq_none_iff.mp hx) hl
  | some x => simp

theorem swapRemove_getD_ne {α} (l : List α) (k i : Nat) (d : α)
    (hi : i < l.length - 1) (hik : i ≠ k) :
    (swapRemove l k).getD i d = l.getD i d := by
  unfold swapRemove
  cases hx : l.getLast? with
  | none =>
    rfl
  | some x =>
    have hlen : (l.set k x).length = l.length := by simp
    have h1 : i < (l.set k x).dropLast.length := by simp [hlen]; omega
    have h2 : i < l.length := by omega
    simp only [List.getD, List.get?_eq_getElem?]
    rw [List.getElem?_eq_getElem h1, List.getElem?_eq_getElem h2]
    simp only [Option.getD_some]
    rw [List.getElem_dropLast]
    simp [List.getElem_set_ne (fun h => hik h.symm)]

theorem swapRemove_getD_self {α} (l : List α) (k : Nat) (d : α)
    (hk : k < l.length - 1) :
    (swapRemove l k).getD k d = l.getD (l.length - 1) d := by
  unfold swapRemove
  cases hx : l.getLast? with
  | none =>
    have := List.getLast?_eq_none_iff.mp hx
    subst this
    simp at hk
  | some x =>
    have hlen : (l.set k x).length = l.length := by simp
    have h1 : k < (l.set k x).dropLast.length := by simp [hlen]; omega
    have h2 : l.length - 1 < l.length := by omega
    simp only [List.getD, List.get?_eq_getElem?]
    rw [List.getElem?_eq_getElem h1, List.getElem?_eq_getElem h2]
    simp only [Option.getD_some]
    rw [List.getElem_dropLast]
    rw [List.getElem_set_self (by omega)]
    have := List.getLast?_eq_getElem? l
    rw [hx, List.getElem?_eq_getElem h2] at this
    exact Option.some_inj.mp this

theorem getD_map_lt {α β} (l : List α) (F : α → β) (i : Nat) (d : β) (d₀ : α)
    (h : i < l.length) : (l.map F).getD i d = F (l.getD i d₀) := by
  simp only [List.getD, List.get?_eq_getElem?]
  rw [List.getElem?_map, List.getElem?_eq_getElem h]
  simp

theorem count_fixRefs (lst : List Nat) (k last x : Nat) (hkl : k ≠ last) (hx : x ≠ last) :
    (fixRefs k last lst).count x = lst.count (if x = k then last else x) := by
  have hsx : (if x = k then last else x) ≠ k := by
    by_cases hxk : x = k
    · simp [hxk, Ne.symm hkl]
    · simp [hxk, hxk]
  unfold fixRefs
  induction lst with
  | nil => simp
  | cons y t ih =>
    by_cases hyk : y = k
    · rw [List.filter_cons_of_neg (by simp [hyk])]
      rw [List.count_cons]
      rw [ih]
      have : ¬ y = (if x = k then last else x) := by
        rw [hyk]; exact fun h => hsx h.symm
      simp [this]
    · rw [List.filter_cons_of_pos (by simp [hyk])]
      rw [List.map_cons, List.count_cons, List.count_cons, ih]
      have hkey : ((if y = last then k else y) = x) ↔ (y = (if x = k then last else x)) := by
        by_cases hyl : y = last
        · subst hyl
          by_cases hxk : x = k
          · subst hxk
            simp
          · simp only [if_pos rfl, if_neg hxk]
            constructor
            · intro h
              exact absurd h.symm hxk
            · intro h
              exact absurd h.symm hx
        · by_cases hxk : x = k
          · subst hxk
            simp only [if_neg hyl, if_pos rfl]
            constructor
            · intro h
              exact absurd h hyk
            · intro h
              exact absurd h hyl
          · simp only [if_neg hyl, if_neg hxk]
      simp only [beq_iff_eq]
      by_cases hc : (if y = last then k else y) = x
      · rw [if_pos hc, if_pos (hkey.mp hc)]
      · rw [if_neg hc, if_neg (fun h => hc (hkey.mpr h))]

theorem mem_fixRefs (lst : List Nat) (k last x : Nat)
    (hmem : x ∈ fixRefs k last lst) :
    (x = k ∧ last ∈ lst ∧ last ≠ k) ∨ (x ∈ lst ∧ x ≠ k ∧ x ≠ last) := by
  unfold fixRefs at hmem
  simp only [List.mem_map, List.mem_filter, decide_eq_true_eq] at hmem
  obtain ⟨y, ⟨hy, hyk⟩, hyx⟩ := hmem
  by_cases hyl : y = last
  · left
    refine ⟨by rw [← hyx, if_pos hyl], ?_, ?_⟩
    · rw [← hyl]
      exact hy
    · rw [← hyl]
      exact fun h => hyk h
  · right
    rw [← hyx, if_neg hyl]
    exact ⟨hy, hyk, hyl⟩

/-- C8: swap-to-end compaction. Removing node `k` (not the last index) moves
the formerly-last node into slot `k`, leaves every other previously-valid
index at its original node, deletes every edge-list reference to the removed
node and rewrites every reference to the moved node's old index to `k` (stated
as an exact multiplicity correspondence through the index relocation), and
leaves no edge-list entry at or beyond the new node count. -/
theorem remove_node_swap (g : Graph) (k : Nat)
    (hwf : g.wf) (hk : k + 1 < g.nodes.length) :
    (g.remove_node k).nodes.length = g.nodes.length - 1
    ∧ (g.remove_node k).nodes.getD k dfltOp = g.nodes.getD (g.nodes.length - 1) dfltOp
    ∧ (∀ i, i < g.nodes.length - 1 → i ≠ k →
        (g.remove_node k).nodes.getD i dfltOp = g.nodes.getD i dfltOp)
    ∧ (∀ i, i < g.nodes.length - 1 →
        (∀ x ∈ (g.remove_node k).inputsOf i, x < g.nodes.length - 1)
        ∧ (∀ x ∈ (g.remove_node k).outputsOf i, x < g.nodes.length - 1))
    ∧ (∀ i, i < g.nodes.length - 1 → ∀ x, x < g.nodes.length - 1 →
        ((g.remove_node k).inputsOf i).count x
          = (g.inputsOf (if i = k then g.nodes.length - 1 else i)).count
              (if x = k then g.nodes.length - 1 else x)
        ∧ ((g.remove_node k).outputsOf i).count x
          = (g.outputsOf (if i = k then g.nodes.length - 1 else i)).count
              (if x = k then g.nodes.length - 1 else x)) := by
  obtain ⟨hlen, hval⟩ := hwf
  have hN : 0 < g.nodes.length := by omega
  have hnodes_ne : g.nodes ≠ [] := by
    intro h
    rw [h] at hN
    simp at hN
  have hedges_ne : g.edges ≠ [] := by
    intro h
    rw [h] at hlen
    simp at hlen
    omega
  have hrn : g.remove_node k =
      Graph.mk (swapRemove g.nodes k)
        ((swapRemove g.edges k).map
          (fun E => Edges.mk (fixRefs k (g.nodes.length - 1) E.inputs)
            (fixRefs k (g.nodes.length - 1) E.outputs))) := by
    unfold Graph.remove_node
    rw [if_pos (show k < g.nodes.length by omega)]
  have hswlen : (swapRemove g.edges k).length = g.nodes.length - 1 := by
    rw [swapRemove_length g.edges k hedges_ne, hlen]
  have hEdge : ∀ i, i < g.nodes.length - 1 →
      (g.remove_node k).edgeAt i =
        Edges.mk
          (fixRefs k (g.nodes.length - 1)
            (g.edges.getD (if i = k then g.nodes.length - 1 else i) ⟨[], []⟩).inputs)
          (fixRefs k (g.nodes.length - 1)
            (g.edges.getD (if i = k then g.nodes.length - 1 else i) ⟨[], []⟩).outputs) := by
    intro i hi
    rw [hrn]
    show ((swapRemove g.edges k).map
        (fun E => Edges.mk (fixRefs k (g.nodes.length - 1) E.inputs)
          (fixRefs k (g.nodes.length - 1) E.outputs))).getD i (Edges.mk [] []) = _
    rw [getD_map_lt _ _ i (Edges.mk [] []) (Edges.mk [] []) (by omega)]
    by_cases hik : i = k
    · subst hik
      rw [if_pos rfl, swapRemove_getD_self g.edges i ⟨[], []⟩ (by omega), hlen]
    · rw [if_neg hik, swapRemove_getD_ne g.edges k i ⟨[], []⟩ (by omega) hik]
  have hvalAt : ∀ j, j < g.nodes.length →
      (∀ m ∈ (g.edges.getD j ⟨[], []⟩).inputs, m < g.nodes.length)
      ∧ (∀ m ∈ (g.edges.getD j ⟨[], []⟩).outputs, m < g.nodes.length) := by
    intro j hj
    exact hval j (by omega)
  refine ⟨?_, ?_, ?_, ?_, ?_⟩
  · rw [hrn]
    exact swapRemove_length g.nodes k hnodes_ne
  · rw [hrn]
    exact swapRemove_getD_self g.nodes k dfltOp (by omega)
  · intro i hi hik
    rw [hrn]
    exact swapRemove_getD_ne g.nodes k i dfltOp hi hik
  · intro i hi
    have hE := hEdge i hi
    have hσ : (if i = k then g.nodes.length - 1 else i) < g.nodes.length := by
      by_cases hik : i = k
      · simp [hik]
        omega
      · simp [hik]
        omega
    constructor
    · intro x hx
      rw [Graph.inputsOf, hE] at hx
      rcases mem_fixRefs _ _ _ _ hx with ⟨hxk, hl1, hl2⟩ | ⟨hmem, _, hne⟩
      · omega
      · have := (hvalAt _ hσ).1 x hmem
        omega
    · intro x hx
      rw [Graph.outputsOf, hE] at hx
      rcases mem_fixRefs _ _ _ _ hx with ⟨hxk, hl1, hl2⟩ | ⟨hmem, _, hne⟩
      · omega
      · have := (hvalAt _ hσ).2 x hmem
        omega
  · intro i hi x hx
    have hE := hEdge i hi
    constructor
    · rw [Graph.inputsOf, hE]
      exact count_fixRefs _ k (g.nodes.length - 1) x (by omega) (by omega)
    · rw [Graph.outputsOf, hE]
      exact count_fixRefs _ k (g.nodes.length - 1) x (by omega) (by omega)

theorem remove_node_swap_witness :
    scenarioC.graph.wf
    ∧ 0 + 1 < scenarioC.graph.nodes.length
    ∧ ((scenarioC.graph.remove_node 0).nodes.length = scenarioC.graph.nodes.length - 1
      ∧ (scenarioC.graph.remove_node 0).nodes.getD 0 dfltOp
          = scenarioC.graph.nodes.getD (scenarioC.graph.nodes.length - 1) dfltOp
      ∧ (∀ i, i < scenarioC.graph.nodes.length - 1 → i ≠ 0 →
          (scenarioC.graph.remove_node 0).nodes.getD i dfltOp
            = scenarioC.graph.nodes.getD i dfltOp)
      ∧ (∀ i, i < scenarioC.graph.nodes.length - 1 →
          (∀ x ∈ (scenarioC.graph.remove_node 0).inputsOf i,
            x < scenarioC.graph.nodes.length - 1)
          ∧ (∀ x ∈ (scenarioC.graph.remove_node 0).outputsOf i,
            x < scenarioC.graph.nodes.length - 1))
      ∧ (∀ i, i < scenarioC.graph.nodes.length - 1 →
          ∀ x, x < scenarioC.graph.nodes.length - 1 →
          ((scenarioC.graph.remove_node 0).inputsOf i).count x
            = (scenarioC.graph.inputsOf
                (if i = 0 then scenarioC.graph.nodes.length - 1 else i)).count
                (if x = 0 then scenarioC.graph.nodes.length - 1 else x)
          ∧ ((scenarioC.graph.remove_node 0).outputsOf i).count x
            = (scenarioC.graph.outputsOf
                (if i = 0 then scenarioC.graph.nodes.length - 1 else i)).count
                (if x = 0 then scenarioC.graph.nodes.length - 1 else x))) :=
  ⟨by decide, by decide, remove_node_swap scenarioC.graph 0 (by decide) (by decide)⟩

theorem updEdges_out (es : List Edges) (i : Nat) (f : Edges → Edges)
    (h : es.length ≤ i) : updEdges es i f = es := by
  simp [updEdges, List.set_eq_of_length_le h]

theorem count_fixRefs_ne (lst : List Nat) (k last x : Nat)
    (hxk : x ≠ k) (hxl : x ≠ last) :
    (fixRefs k last lst).count x = lst.count x := by
  unfold fixRefs
  induction lst with
  | nil => simp
  | cons y t ih =>
    by_cases hyk : y = k
    · rw [List.filter_cons_of_neg (by simp [hyk])]
      rw [List.count_cons, ih]
      have : ¬ y = x := by rw [hyk]; exact fun h => hxk h.symm
      simp [this]
    · rw [List.filter_cons_of_pos (by simp [hyk])]
      rw [List.map_cons, List.count_cons, List.count_cons, ih]
      simp only [beq_iff_eq]
      have hkey : ((if y = last then k else y) = x) ↔ (y = x) := by
        by_cases hyl : y = last
        · rw [if_pos hyl]
          constructor
          · intro h
            exact absurd h.symm hxk
          · intro h
            exact absurd (h.symm.trans hyl) hxl
        · rw [if_neg hyl]
      by_cases hc : (if y = last then k else y) = x
      · rw [if_pos hc, if_pos (hkey.mp hc)]
      · rw [if_neg hc, if_neg (fun h => hc (hkey.mpr h))]

theorem count_fixRefs_self (lst : List Nat) (k last : Nat) (hkl : k ≠ last) :
    (fixRefs k last lst).count k = lst.count last := by
  unfold fixRefs
  induction lst with
  | nil => simp
  | cons y t ih =>
    by_cases hyk : y = k
    · rw [List.filter_cons_of_neg (by simp [hyk])]
      rw [List.count_cons, ih]
      have : ¬ y = last := by rw [hyk]; exact hkl
      simp [this]
    · rw [List.filter_cons_of_pos (by simp [hyk])]
      rw [List.map_cons, List.count_cons, List.count_cons, ih]
      simp only [beq_iff_eq]
      have hkey : ((if y = last then k else y) = k) ↔ (y = last) := by
        by_cases hyl : y = last
        · simp [hyl]
        · rw [if_neg hyl]
          constructor
          · intro h
            exact absurd h hyk
          · intro h
            exact absurd h hyl
      by_cases hc : (if y = last then k else y) = k
      · rw [if_pos hc, if_pos (hkey.mp hc)]
      · rw [if_neg hc, if_neg (fun h => hc (hkey.mpr h))]

theorem fixRefs_length_le (lst : List Nat) (k last : Nat) :
    (fixRefs k last lst).length ≤ lst.length := by
  unfold fixRefs
  rw [List.length_map]
  exact List.length_filter_le _ _

theorem add_edge_full_eq (g : Graph) (a b e : Nat) (tl : List Nat)
    (ha : a < g.nodes.length) (hb : b < g.nodes.length)
    (hcond : a ≠ b ∧ (g.nodes.getD a dfltOp).family.has_outputs = true
      ∧ (g.nodes.getD b dfltOp).family.has_inputs = true)
    (hfull : (g.nodes.getD b dfltOp).family.get_input_capacity ≤ (g.inputsOf b).length)
    (hhead : g.inputsOf b = e :: tl) :
    g.add_edge a b =
      Graph.mk g.nodes
        (updEdges
          (updEdges
            (updEdges g.edges e (fun E => Edges.mk E.inputs (E.outputs.erase b)))
            b (fun E => Edges.mk (tl ++ [a]) E.outputs))
          a (fun E => Edges.mk E.inputs (E.outputs ++ [b]))) := by
  have hA : g.nodes[a]? = some (g.nodes.getD a dfltOp) := by
    simp [List.getD, List.getElem?_eq_getElem ha]
  have hB : g.nodes[b]? = some (g.nodes.getD b dfltOp) := by
    simp [List.getD, List.getElem?_eq_getElem hb]
  unfold Graph.add_edge
  rw [hA, hB]
  simp only [if_pos hcond, hhead, if_pos (hhead ▸ hfull)]

theorem add_edge_nonfull_eq (g : Graph) (a b : Nat)
    (ha : a < g.nodes.length) (hb : b < g.nodes.length)
    (hcond : a ≠ b ∧ (g.nodes.getD a dfltOp).family.has_outputs = true
      ∧ (g.nodes.getD b dfltOp).family.has_inputs = true)
    (hnot : ¬ (g.nodes.getD b dfltOp).family.get_input_capacity ≤ (g.inputsOf b).length) :
    g.add_edge a b =
      Graph.mk g.nodes
        (updEdges
          (updEdges g.edges b (fun E => Edges.mk (g.inputsOf b ++ [a]) E.outputs))
          a (fun E => Edges.mk E.inputs (E.outputs ++ [b]))) := by
  have hA : g.nodes[a]? = some (g.nodes.getD a dfltOp) := by
    simp [List.getD, List.getElem?_eq_getElem ha]
  have hB : g.nodes[b]? = some (g.nodes.getD b dfltOp) := by
    simp [List.getD, List.getElem?_eq_getElem hb]
  unfold Graph.add_edge
  rw [hA, hB]
  simp only [if_pos hcond, if_neg hnot]

theorem getD_out (es : List Edges) (i : Nat) (h : es.length ≤ i) :
    es.getD i ⟨[], []⟩ = ⟨[], []⟩ := by
  simp [List.getD, List.get?_eq_getElem?, List.getElem?_eq_none h]

theorem inputsOf_updEdges_keep (es : List Edges) (i j : Nat) (f : Edges → Edges)
    (hf : ∀ E, (f E).inputs = E.inputs) :
    ((updEdges es i f).getD j ⟨[], []⟩).inputs = (es.getD j ⟨[], []⟩).inputs := by
  by_cases hji : j = i
  · rw [hji]
    by_cases hlt : i < es.length
    · rw [getD_updEdges_self es i _ hlt, hf]
    · rw [updEdges_out es i _ (by omega)]
  · rw [getD_updEdges_ne es i j _ (fun h => hji h.symm)]

theorem outputsOf_updEdges_keep (es : List Edges) (i j : Nat) (f : Edges → Edges)
    (hf : ∀ E, (f E).outputs = E.outputs) :
    ((updEdges es i f).getD j ⟨[], []⟩).outputs = (es.getD j ⟨[], []⟩).outputs := by
  by_cases hji : j = i
  · rw [hji]
    by_cases hlt : i < es.length
    · rw [getD_updEdges_self es i _ hlt, hf]
    · rw [updEdges_out es i _ (by omega)]
  · rw [getD_updEdges_ne es i j _ (fun h => hji h.symm)]

theorem getD_append_lt {α} (l l' : List α) (i : Nat) (d : α) (h : i < l.length) :
    (l ++ l').getD i d = l.getD i d := by
  simp only [List.getD, List.get?_eq_getElem?]
  rw [List.getElem?_append, if_pos h]

theorem getD_append_self {α} (l : List α) (x : α) (d : α) :
    (l ++ [x]).getD l.length d = x := by
  simp only [List.getD, List.get?_eq_getElem?]
  rw [List.getElem?_append_right (Nat.le_refl _)]
  simp

theorem add_edge_full_inputsOf (g : Graph) (a b e : Nat) (tl : List Nat)
    (ha : a < g.nodes.length) (hb : b < g.nodes.length)
    (hcond : a ≠ b ∧ (g.nodes.getD a dfltOp).family.has_outputs = true
      ∧ (g.nodes.getD b dfltOp).family.has_inputs = true)
    (hfull : (g.nodes.getD b dfltOp).family.get_input_capacity ≤ (g.inputsOf b).length)
    (hhead : g.inputsOf b = e :: tl)
    (hlen : g.edges.length = g.nodes.length) :
    ∀ j, (g.add_edge a b).inputsOf j = if j = b then tl ++ [a] else g.inputsOf j := by
  intro j
  rw [add_edge_full_eq g a b e tl ha hb hcond hfull hhead]
  show ((updEdges
      (updEdges
        (updEdges g.edges e (fun E => Edges.mk E.inputs (E.outputs.erase b)))
        b (fun E => Edges.mk (tl ++ [a]) E.outputs))
      a (fun E => Edges.mk E.inputs (E.outputs ++ [b]))).getD j ⟨[], []⟩).inputs = _
  rw [inputsOf_updEdges_keep _ _ _ (fun E => Edges.mk E.inputs (E.outputs ++ [b])) (fun E => rfl)]
  by_cases hjb : j = b
  · rw [if_pos hjb, hjb]
    rw [getD_updEdges_self _ b _ (by rw [updEdges_length]; omega)]
  · rw [if_neg hjb]
    rw [getD_updEdges_ne _ b j _ (fun h => hjb h.symm)]
    rw [inputsOf_updEdges_keep _ _ _ (fun E => Edges.mk E.inputs (E.outputs.erase b)) (fun E => rfl)]
    rfl

theorem add_edge_full_outputsOf (g : Graph) (a b e : Nat) (tl : List Nat)
    (ha : a < g.nodes.length) (hb : b < g.nodes.length)
    (hcond : a ≠ b ∧ (g.nodes.getD a dfltOp).family.has_outputs = true
      ∧ (g.nodes.getD b dfltOp).family.has_inputs = true)
    (hfull : (g.nodes.getD b dfltOp).family.get_input_capacity ≤ (g.inputsOf b).length)
    (hhead : g.inputsOf b = e :: tl)
    (hlen : g.edges.length = g.nodes.length)
    (helen : e < g.edges.length) :
    ∀ j, (g.add_edge a b).outputsOf j =
      if j = a then ((if a = e then (g.outputsOf e).erase b else g.outputsOf a) ++ [b])
      else if j = e then (g.outputsOf e).erase b
      else g.outputsOf j := by
  intro j
  rw [add_edge_full_eq g a b e tl ha hb hcond hfull hhead]
  show ((updEdges
      (updEdges
        (updEdges g.edges e (fun E => Edges.mk E.inputs (E.outputs.erase b)))
        b (fun E => Edges.mk (tl ++ [a]) E.outputs))
      a (fun E => Edges.mk E.inputs (E.outputs ++ [b]))).getD j ⟨[], []⟩).outputs = _
  by_cases hja : j = a
  · rw [if_pos hja, hja]
    rw [getD_updEdges_self _ a _ (by rw [updEdges_length, updEdges_length]; omega)]
    show ((updEdges
        (updEdges g.edges e (fun E => Edges.mk E.inputs (E.outputs.erase b)))
        b (fun E => Edges.mk (tl ++ [a]) E.outputs)).getD a ⟨[], []⟩).outputs ++ [b] = _
    rw [outputsOf_updEdges_keep _ _ _ (fun E => Edges.mk (tl ++ [a]) E.outputs) (fun E => rfl)]
    by_cases hae : a = e
    · rw [if_pos hae, hae]
      rw [getD_updEdges_self _ e _ helen]
      rfl
    · rw [if_neg hae]
      rw [getD_updEdges_ne _ e a _ (fun h => hae h.symm)]
      rfl
  · rw [if_neg hja]
    rw [getD_updEdges_ne _ a j _ (fun h => hja h.symm)]
    rw [outputsOf_updEdges_keep _ _ _ (fun E => Edges.mk (tl ++ [a]) E.outputs) (fun E => rfl)]
    by_cases hje : j = e
    · rw [if_pos hje, hje]
      rw [getD_updEdges_self _ e _ helen]
      rfl
    · rw [if_neg hje]
      rw [getD_updEdges_ne _ e j _ (fun h => hje h.symm)]
      rfl

theorem add_edge_nonfull_inputsOf (g : Graph) (a b : Nat)
    (ha : a < g.nodes.length) (hb : b < g.nodes.length)
    (hcond : a ≠ b ∧ (g.nodes.getD a dfltOp).family.has_outputs = true
      ∧ (g.nodes.getD b dfltOp).family.has_inputs = true)
    (hnot : ¬ (g.nodes.getD b dfltOp).family.get_input_capacity ≤ (g.inputsOf b).length)
    (hlen : g.edges.length = g.nodes.length) :
    ∀ j, (g.add_edge a b).inputsOf j = if j = b then g.inputsOf b ++ [a] else g.inputsOf j := by
  intro j
  rw [add_edge_nonfull_eq g a b ha hb hcond hnot]
  show ((updEdges
      (updEdges g.edges b (fun E => Edges.mk (g.inputsOf b ++ [a]) E.outputs))
      a (fun E => Edges.mk E.inputs (E.outputs ++ [b]))).getD j ⟨[], []⟩).inputs = _
  rw [inputsOf_updEdges_keep _ _ _ (fun E => Edges.mk E.inputs (E.outputs ++ [b])) (fun E => rfl)]
  by_cases hjb : j = b
  · rw [if_pos hjb, hjb]
    rw [getD_updEdges_self _ b _ (by omega)]
  · rw [if_neg hjb]
    rw [getD_updEdges_ne _ b j _ (fun h => hjb h.symm)]
    rfl

theorem add_edge_nonfull_outputsOf (g : Graph) (a b : Nat)
    (ha : a < g.nodes.length) (hb : b < g.nodes.length)
    (hcond : a ≠ b ∧ (g.nodes.getD a dfltOp).family.has_outputs = true
      ∧ (g.nodes.getD b dfltOp).family.has_inputs = true)
    (hnot : ¬ (g.nodes.getD b dfltOp).family.get_input_capacity ≤ (g.inputsOf b).length)
    (hlen : g.edges.length = g.nodes.length) :
    ∀ j, (g.add_edge a b).outputsOf j = if j = a then g.outputsOf a ++ [b] else g.outputsOf j := by
  intro j
  rw [add_edge_nonfull_eq g a b ha hb hcond hnot]
  show ((updEdges
      (updEdges g.edges b (fun E => Edges.mk (g.inputsOf b ++ [a]) E.outputs))
      a (fun E => Edges.mk E.inputs (E.outputs ++ [b]))).getD j ⟨[], []⟩).outputs = _
  by_cases hja : j = a
  · rw [if_pos hja, hja]
    rw [getD_updEdges_self _ a _ (by rw [updEdges_length]; omega)]
    show ((updEdges g.edges b (fun E => Edges.mk (g.inputsOf b ++ [a]) E.outputs)).getD a
        ⟨[], []⟩).outputs ++ [b] = _
    rw [outputsOf_updEdges_keep _ _ _ (fun E => Edges.mk (g.inputsOf b ++ [a]) E.outputs) (fun E => rfl)]
    rfl
  · rw [if_neg hja]
    rw [getD_updEdges_ne _ a j _ (fun h => hja h.symm)]
    rw [outputsOf_updEdges_keep _ _ _ (fun E => Edges.mk (g.inputsOf b ++ [a]) E.outputs) (fun E => rfl)]
    rfl

theorem remove_edge_inputsOf (g : Graph) (a b : Nat) :
    ∀ j, (g.remove_edge a b).inputsOf j
      = if j = b then (g.inputsOf b).erase a else g.inputsOf j := by
  intro j
  show ((updEdges
      (updEdges g.edges a (fun E => Edges.mk E.inputs (E.outputs.erase b)))
      b (fun E => Edges.mk (E.inputs.erase a) E.outputs)).getD j ⟨[], []⟩).inputs = _
  by_cases hjb : j = b
  · rw [if_pos hjb, hjb]
    by_cases hblt : b < g.edges.length
    · rw [getD_updEdges_self _ b _ (by rw [updEdges_length]; omega)]
      show (((updEdges g.edges a (fun E => Edges.mk E.inputs (E.outputs.erase b))).getD b
          ⟨[], []⟩).inputs).erase a = _
      rw [inputsOf_updEdges_keep _ _ _ (fun E => Edges.mk E.inputs (E.outputs.erase b)) (fun E => rfl)]
      rfl
    · rw [updEdges_out _ b _ (by rw [updEdges_length]; omega)]
      rw [inputsOf_updEdges_keep _ _ _ (fun E => Edges.mk E.inputs (E.outputs.erase b)) (fun E => rfl)]
      rw [Graph.inputsOf, Graph.edgeAt, getD_out _ b (by omega)]
      rfl
  · rw [if_neg hjb]
    rw [getD_updEdges_ne _ b j _ (fun h => hjb h.symm)]
    rw [inputsOf_updEdges_keep _ _ _ (fun E => Edges.mk E.inputs (E.outputs.erase b)) (fun E => rfl)]
    rfl

theorem remove_edge_outputsOf (g : Graph) (a b : Nat) :
    ∀ j, (g.remove_edge a b).outputsOf j
      = if j = a then (g.outputsOf a).erase b else g.outputsOf j := by
  intro j
  show ((updEdges
      (updEdges g.edges a (fun E => Edges.mk E.inputs (E.outputs.erase b)))
      b (fun E => Edges.mk (E.inputs.erase a) E.outputs)).getD j ⟨[], []⟩).outputs = _
  rw [outputsOf_updEdges_keep _ _ _ (fun E => Edges.mk (E.inputs.erase a) E.outputs) (fun E => rfl)]
  by_cases hja : j = a
  · rw [if_pos hja, hja]
    by_cases halt : a < g.edges.length
    · rw [getD_updEdges_self _ a _ halt]
      rfl
    · rw [updEdges_out _ a _ (by omega)]
      rw [Graph.outputsOf, Graph.edgeAt, getD_out _ a (by omega)]
      rfl
  · rw [if_neg hja]
    rw [getD_updEdges_ne _ a j _ (fun h => hja h.symm)]
    rfl

theorem wf_inputs_lt (g : Graph) (hwf : g.wf) :
    ∀ i, ∀ m ∈ g.inputsOf i, m < g.nodes.length := by
  intro i m hm
  by_cases hi : i < g.edges.length
  · exact (hwf.2 i hi).1 m hm
  · rw [Graph.inputsOf, Graph.edgeAt, getD_out _ i (by omega)] at hm
    cases hm

theorem wf_outputs_lt (g : Graph) (hwf : g.wf) :
    ∀ i, ∀ m ∈ g.outputsOf i, m < g.nodes.length := by
  intro i m hm
  by_cases hi : i < g.edges.length
  · exact (hwf.2 i hi).2 m hm
  · rw [Graph.outputsOf, Graph.edgeAt, getD_out _ i (by omega)] at hm
    cases hm

theorem add_node_edgeAt (g : Graph) (op : Op) (j : Nat) :
    (g.add_node op).edgeAt j = g.edgeAt j := by
  show (g.edges ++ [Edges.mk [] []]).getD j (Edges.mk [] []) = g.edges.getD j (Edges.mk [] [])
  by_cases hj : j < g.edges.length
  · exact getD_append_lt _ _ _ _ hj
  · by_cases hj2 : j = g.edges.length
    · rw [hj2, getD_append_self, getD_out _ _ (Nat.le_refl _)]
    · rw [getD_out _ _ (by simp; omega), getD_out _ _ (by omega)]

theorem add_node_nodes_getD_lt (g : Graph) (op : Op) (i : Nat) (hi : i < g.nodes.length) :
    (g.add_node op).nodes.getD i dfltOp = g.nodes.getD i dfltOp := by
  show (g.nodes ++ [op]).getD i dfltOp = g.nodes.getD i dfltOp
  exact getD_append_lt _ _ _ _ hi

theorem add_edge_cases (g : Graph) (a b : Nat) :
    g.add_edge a b = g
    ∨ (a < g.nodes.length ∧ b < g.nodes.length
        ∧ (a ≠ b ∧ (g.nodes.getD a dfltOp).family.has_outputs = true
            ∧ (g.nodes.getD b dfltOp).family.has_inputs = true)
        ∧ ((g.nodes.getD b dfltOp).family.get_input_capacity ≤ (g.inputsOf b).length)
        ∧ ∃ e tl, g.inputsOf b = e :: tl)
    ∨ (a < g.nodes.length ∧ b < g.nodes.length
        ∧ (a ≠ b ∧ (g.nodes.getD a dfltOp).family.has_outputs = true
            ∧ (g.nodes.getD b dfltOp).family.has_inputs = true)
        ∧ ¬ ((g.nodes.getD b dfltOp).family.get_input_capacity ≤ (g.inputsOf b).length)) := by
  cases hA : g.nodes[a]? with
  | none =>
    left
    unfold Graph.add_edge
    rw [hA]
  | some na =>
    cases hB : g.nodes[b]? with
    | none =>
      left
      unfold Graph.add_edge
      rw [hA, hB]
    | some nb =>
      have ha : a < g.nodes.length := by
        by_contra hcon
        rw [List.getElem?_eq_none (by omega)] at hA
        cases hA
      have hb : b < g.nodes.length := by
        by_contra hcon
        rw [List.getElem?_eq_none (by omega)] at hB
        cases hB
      have hna : na = g.nodes.getD a dfltOp := by
        rw [List.getElem?_eq_getElem ha] at hA
        simp [List.getD, List.get?_eq_getElem?, List.getElem?_eq_getElem ha]
        exact (Option.some_inj.mp hA).symm
      have hnb : nb = g.nodes.getD b dfltOp := by
        rw [List.getElem?_eq_getElem hb] at hB
        simp [List.getD, List.get?_eq_getElem?, List.getElem?_eq_getElem hb]
        exact (Option.some_inj.mp hB).symm
      by_cases hcond : a ≠ b ∧ na.family.has_outputs = true ∧ nb.family.has_inputs = true
      · by_cases hfull : nb.family.get_input_capacity ≤ (g.inputsOf b).length
        · right; left
          have hcap_pos : 0 < nb.family.get_input_capacity := by
            have := hcond.2.2
            unfold OpFamily.has_inputs at this
            exact of_decide_eq_true this
          have hne : g.inputsOf b ≠ [] := by
            intro hnil
            rw [hnil] at hfull
            simp at hfull
            omega
          obtain ⟨e, tl, hetl⟩ : ∃ e tl, g.inputsOf b = e :: tl := by
            cases hx : g.inputsOf b with
            | nil => exact absurd hx hne
            | cons e tl => exact ⟨e, tl, rfl⟩
          rw [hna] at hcond
          rw [hnb] at hcond hfull
          exact ⟨ha, hb, hcond, hfull, e, tl, hetl⟩
        · right; right
          rw [hna] at hcond
          rw [hnb] at hcond hfull
          exact ⟨ha, hb, hcond, hfull⟩
      · left
        unfold Graph.add_edge
        rw [hA, hB]
        dsimp only
        rw [if_neg hcond]

theorem count_fixRefs_lt (lst : List Nat) (k last y : Nat) (hyl : y ≠ last) :
    (fixRefs k last lst).count y = lst.count (if y = k then last else y) := by
  by_cases hyk : y = k
  · rw [if_pos hyk, hyk]
    exact count_fixRefs_self lst k last (hyk ▸ hyl)
  · rw [if_neg hyk]
    exact count_fixRefs_ne lst k last y hyk hyl

theorem remove_node_nodes_length (g : Graph) (k : Nat) (hk : k < g.nodes.length) :
    (g.remove_node k).nodes.length = g.nodes.length - 1 := by
  unfold Graph.remove_node
  rw [if_pos hk]
  exact swapRemove_length g.nodes k (by intro h; rw [h] at hk; simp at hk)

theorem remove_node_edges_length (g : Graph) (k : Nat)
    (hlen : g.edges.length = g.nodes.length) (hk : k < g.nodes.length) :
    (g.remove_node k).edges.length = g.nodes.length - 1 := by
  unfold Graph.remove_node
  rw [if_pos hk]
  show ((swapRemove g.edges k).map _).length = _
  rw [List.length_map]
  rw [swapRemove_length g.edges k (by intro h; rw [h] at hlen; simp at hlen; omega), hlen]

theorem remove_node_nodes_getD (g : Graph) (k i : Nat) (hk : k < g.nodes.length)
    (hi : i < g.nodes.length - 1) :
    (g.remove_node k).nodes.getD i dfltOp
      = g.nodes.getD (if i = k then g.nodes.length - 1 else i) dfltOp := by
  unfold Graph.remove_node
  rw [if_pos hk]
  show (swapRemove g.nodes k).getD i dfltOp = _
  by_cases hik : i = k
  · rw [if_pos hik, hik]
    exact swapRemove_getD_self g.nodes k dfltOp (by omega)
  · rw [if_neg hik]
    exact swapRemove_getD_ne g.nodes k i dfltOp hi hik

theorem remove_node_edgeAt (g : Graph) (k : Nat)
    (hlen : g.edges.length = g.nodes.length) (hk : k < g.nodes.length) :
    ∀ i, i < g.nodes.length - 1 →
      (g.remove_node k).edgeAt i =
        Edges.mk
          (fixRefs k (g.nodes.length - 1)
            (g.edges.getD (if i = k then g.nodes.length - 1 else i) ⟨[], []⟩).inputs)
          (fixRefs k (g.nodes.length - 1)
            (g.edges.getD (if i = k then g.nodes.length - 1 else i) ⟨[], []⟩).outputs) := by
  intro i hi
  unfold Graph.remove_node
  rw [if_pos hk]
  show ((swapRemove g.edges k).map
      (fun E => Edges.mk (fixRefs k (g.nodes.length - 1) E.inputs)
        (fixRefs k (g.nodes.length - 1) E.outputs))).getD i (Edges.mk [] []) = _
  rw [getD_map_lt _ _ i (Edges.mk [] []) (Edges.mk [] [])
    (by rw [swapRemove_length g.edges k (by intro h; rw [h] at hlen; simp at hlen; omega)]; omega)]
  by_cases hik : i = k
  · rw [if_pos hik, hik]
    rw [swapRemove_getD_self g.edges k (Edges.mk [] []) (by omega), hlen]
  · rw [if_neg hik]
    rw [swapRemove_getD_ne g.edges k i (Edges.mk [] []) (by omega) hik]

theorem remove_node_edgeAt_out (g : Graph) (k i : Nat)
    (hlen : g.edges.length = g.nodes.length) (hk : k < g.nodes.length)
    (hi : g.nodes.length - 1 ≤ i) :
    (g.remove_node k).edgeAt i = Edges.mk [] [] := by
  show (g.remove_node k).edges.getD i (Edges.mk [] []) = _
  rw [getD_out _ i (by rw [remove_node_edges_length g k hlen hk]; omega)]

theorem ginv_add_node (g : Graph) (op : Op) (h : GInv g) : GInv (g.add_node op) := by
  obtain ⟨⟨hlen, hval⟩, hcnt, hcap⟩ := h
  have hIn : ∀ j, (g.add_node op).inputsOf j = g.inputsOf j := by
    intro j
    show ((g.add_node op).edgeAt j).inputs = _
    rw [add_node_edgeAt]
    rfl
  have hOut : ∀ j, (g.add_node op).outputsOf j = g.outputsOf j := by
    intro j
    show ((g.add_node op).edgeAt j).outputs = _
    rw [add_node_edgeAt]
    rfl
  have hnlen : (g.add_node op).nodes.length = g.nodes.length + 1 := by
    show (g.nodes ++ [op]).length = _
    simp
  have helen : (g.add_node op).edges.length = g.edges.length + 1 := by
    show (g.edges ++ [Edges.mk [] []]).length = _
    simp
  refine ⟨⟨by omega, ?_⟩, ?_, ?_⟩
  · intro i hi
    constructor
    · intro m hm
      rw [hIn i] at hm
      have := wf_inputs_lt g ⟨hlen, hval⟩ i m hm
      omega
    · intro m hm
      rw [hOut i] at hm
      have := wf_outputs_lt g ⟨hlen, hval⟩ i m hm
      omega
  · intro x y
    rw [hIn, hOut]
    exact hcnt x y
  · intro i hi
    rw [hIn i]
    by_cases hilt : i < g.nodes.length
    · rw [add_node_nodes_getD_lt g op i hilt]
      exact hcap i hilt
    · have : ∀ m ∈ g.inputsOf i, m < g.nodes.length := wf_inputs_lt g ⟨hlen, hval⟩ i
      have hempty : g.inputsOf i = [] := by
        rw [Graph.inputsOf, Graph.edgeAt, getD_out _ i (by omega)]
      rw [hempty]
      simp

theorem ginv_remove_edge (g : Graph) (a b : Nat) (h : GInv g) : GInv (g.remove_edge a b) := by
  obtain ⟨⟨hlen, hval⟩, hcnt, hcap⟩ := h
  have hIn := remove_edge_inputsOf g a b
  have hOut := remove_edge_outputsOf g a b
  have hnodes : (g.remove_edge a b).nodes = g.nodes := rfl
  have helen : (g.remove_edge a b).edges.length = g.edges.length := by
    show (updEdges (updEdges g.edges a (fun E => Edges.mk E.inputs (E.outputs.erase b))) b
        (fun E => Edges.mk (E.inputs.erase a) E.outputs)).length = g.edges.length
    rw [updEdges_length, updEdges_length]
  refine ⟨⟨by rw [helen, hnodes]; exact hlen, ?_⟩, ?_, ?_⟩
  · intro i hi
    constructor
    · intro m hm
      rw [hIn i] at hm
      rw [hnodes]
      by_cases hib : i = b
      · rw [if_pos hib] at hm
        exact wf_inputs_lt g ⟨hlen, hval⟩ b m (List.mem_of_mem_erase hm)
      · rw [if_neg hib] at hm
        exact wf_inputs_lt g ⟨hlen, hval⟩ i m hm
    · intro m hm
      rw [hOut i] at hm
      rw [hnodes]
      by_cases hia : i = a
      · rw [if_pos hia] at hm
        exact wf_outputs_lt g ⟨hlen, hval⟩ a m (List.mem_of_mem_erase hm)
      · rw [if_neg hia] at hm
        exact wf_outputs_lt g ⟨hlen, hval⟩ i m hm
  · intro x y
    rw [hIn y, hOut x]
    by_cases hxa : x = a
    · by_cases hyb : y = b
      · rw [if_pos hxa, if_pos hyb, hxa, hyb]
        rw [List.count_erase_self, List.count_erase_self, hcnt a b]
      · rw [if_pos hxa, if_neg hyb, hxa]
        rw [List.count_erase_of_ne hyb]
        exact hcnt a y
    · by_cases hyb : y = b
      · rw [if_neg hxa, if_pos hyb, hyb]
        rw [List.count_erase_of_ne hxa]
        exact hcnt x b
      · rw [if_neg hxa, if_neg hyb]
        exact hcnt x y
  · intro i hi
    rw [hIn i, hnodes]
    by_cases hib : i = b
    · rw [if_pos hib, hib]
      calc ((g.inputsOf b).erase a).length ≤ (g.inputsOf b).length := List.length_erase_le a _
        _ ≤ _ := hcap b (by rw [hnodes] at hi; rw [← hib] at *; exact hi)
    · rw [if_neg hib]
      exact hcap i (by rw [hnodes] at hi; exact hi)

theorem ginv_remove_node (g : Graph) (k : Nat) (h : GInv g) : GInv (g.remove_node k) := by
  obtain ⟨⟨hlen, hval⟩, hcnt, hcap⟩ := h
  by_cases hk : k < g.nodes.length
  case neg =>
    have : g.remove_node k = g := by
      unfold Graph.remove_node
      rw [if_neg hk]
    rw [this]
    exact ⟨⟨hlen, hval⟩, hcnt, hcap⟩
  case pos =>
  have hnlen := remove_node_nodes_length g k hk
  have helen := remove_node_edges_length g k hlen hk
  have hE := remove_node_edgeAt g k hlen hk
  have hklN : k = g.nodes.length - 1 ∨ k < g.nodes.length - 1 := by omega
  have hvalid : ∀ i, i < g.nodes.length - 1 →
      (∀ x ∈ (g.remove_node k).inputsOf i, x < g.nodes.length - 1)
      ∧ (∀ x ∈ (g.remove_node k).outputsOf i, x < g.nodes.length - 1) := by
    intro i hi
    have hσ : (if i = k then g.nodes.length - 1 else i) < g.nodes.length := by
      by_cases hik : i = k
      · rw [if_pos hik]; omega
      · rw [if_neg hik]; omega
    constructor
    · intro x hx
      rw [Graph.inputsOf, hE i hi] at hx
      rcases mem_fixRefs _ _ _ _ hx with ⟨hxk, hlst, hlk⟩ | ⟨hmem, hxk, hxl⟩
      · omega
      · have : x < g.nodes.length := wf_inputs_lt g ⟨hlen, hval⟩ _ x hmem
        omega
    · intro x hx
      rw [Graph.outputsOf, hE i hi] at hx
      rcases mem_fixRefs _ _ _ _ hx with ⟨hxk, hlst, hlk⟩ | ⟨hmem, hxk, hxl⟩
      · omega
      · have : x < g.nodes.length := wf_outputs_lt g ⟨hlen, hval⟩ _ x hmem
        omega
  refine ⟨⟨by omega, ?_⟩, ?_, ?_⟩
  · intro i hi
    rw [helen] at hi
    have := hvalid i hi
    constructor
    · intro m hm
      have := this.1 m hm
      omega
    · intro m hm
      have := this.2 m hm
      omega
  · intro x y
    by_cases hx2 : x < g.nodes.length - 1
    · by_cases hy2 : y < g.nodes.length - 1
      · rw [Graph.outputsOf, hE x hx2, Graph.inputsOf, hE y hy2]
        show (fixRefs k (g.nodes.length - 1) _).count y = (fixRefs k (g.nodes.length - 1) _).count x
        rw [count_fixRefs_lt _ _ _ y (by omega), count_fixRefs_lt _ _ _ x (by omega)]
        exact hcnt _ _
      · have hL : ((g.remove_node k).outputsOf x).count y = 0 := by
          apply List.count_eq_zero.mpr
          intro hmem
          have := (hvalid x hx2).2 y hmem
          omega
        have hR : ((g.remove_node k).inputsOf y).count x = 0 := by
          apply List.count_eq_zero.mpr
          intro hmem
          rw [Graph.inputsOf, remove_node_edgeAt_out g k y hlen hk (by omega)] at hmem
          cases hmem
        rw [hL, hR]
    · have hL : ((g.remove_node k).outputsOf x).count y = 0 := by
        apply List.count_eq_zero.mpr
        intro hmem
        rw [Graph.outputsOf, remove_node_edgeAt_out g k x hlen hk (by omega)] at hmem
        cases hmem
      have hR : ((g.remove_node k).inputsOf y).count x = 0 := by
        apply List.count_eq_zero.mpr
        intro hmem
        by_cases hy2 : y < g.nodes.length - 1
        · have := (hvalid y hy2).1 x hmem
          omega
        · rw [Graph.inputsOf, remove_node_edgeAt_out g k y hlen hk (by omega)] at hmem
          cases hmem
      rw [hL, hR]
  · intro i hi
    rw [hnlen] at hi
    rw [Graph.inputsOf, hE i hi, remove_node_nodes_getD g k i hk hi]
    have hσ : (if i = k then g.nodes.length - 1 else i) < g.nodes.length := by
      by_cases hik : i = k
      · rw [if_pos hik]; omega
      · rw [if_neg hik]; omega
    calc (fixRefs k (g.nodes.length - 1)
        (g.edges.getD (if i = k then g.nodes.length - 1 else i) ⟨[], []⟩).inputs).length
        ≤ (g.edges.getD (if i = k then g.nodes.length - 1 else i) ⟨[], []⟩).inputs.length :=
          fixRefs_length_le _ _ _
      _ ≤ _ := hcap _ hσ

theorem ginv_add_edge (g : Graph) (a b : Nat) (h : GInv g) : GInv (g.add_edge a b) := by
  obtain ⟨⟨hlen, hval⟩, hcnt, hcap⟩ := h
  rcases add_edge_cases g a b with heq | ⟨ha, hb, hcond, hfull, e, tl, hhead⟩ | ⟨ha, hb, hcond, hnot⟩
  · rw [heq]
    exact ⟨⟨hlen, hval⟩, hcnt, hcap⟩
  · -- full branch: evicting the oldest input of b
    have helen : e < g.edges.length := by
      have he : e ∈ g.inputsOf b := by
        rw [hhead]
        exact List.mem_cons_self _ _
      have := wf_inputs_lt g ⟨hlen, hval⟩ b e he
      omega
    have hIn := add_edge_full_inputsOf g a b e tl ha hb hcond hfull hhead hlen
    have hOut := add_edge_full_outputsOf g a b e tl ha hb hcond hfull hhead hlen helen
    have hnodes : (g.add_edge a b).nodes = g.nodes := by
      rw [add_edge_full_eq g a b e tl ha hb hcond hfull hhead]
    have hedlen : (g.add_edge a b).edges.length = g.edges.length := by
      rw [add_edge_full_eq g a b e tl ha hb hcond hfull hhead]
      show (updEdges (updEdges (updEdges g.edges e
          (fun E => Edges.mk E.inputs (E.outputs.erase b))) b
          (fun E => Edges.mk (tl ++ [a]) E.outputs)) a
          (fun E => Edges.mk E.inputs (E.outputs ++ [b]))).length = g.edges.length
      rw [updEdges_length, updEdges_length, updEdges_length]
    have hcb : (g.outputsOf e).count b = tl.count e + 1 := by
      rw [hcnt e b, hhead, List.count_cons_self]
    refine ⟨⟨by rw [hedlen, hnodes]; exact hlen, ?_⟩, ?_, ?_⟩
    · -- validity
      intro i hi
      rw [hnodes]
      constructor
      · intro m hm
        rw [hIn i] at hm
        by_cases hib : i = b
        · rw [if_pos hib] at hm
          rcases List.mem_append.mp hm with hmt | hma
          · exact wf_inputs_lt g ⟨hlen, hval⟩ b m (by rw [hhead]; exact List.mem_cons_of_mem _ hmt)
          · have : m = a := List.mem_singleton.mp hma
            omega
        · rw [if_neg hib] at hm
          exact wf_inputs_lt g ⟨hlen, hval⟩ i m hm
      · intro m hm
        rw [hOut i] at hm
        by_cases hia : i = a
        · rw [if_pos hia] at hm
          rcases List.mem_append.mp hm with hmi | hmb
          · by_cases hae : a = e
            · rw [if_pos hae] at hmi
              exact wf_outputs_lt g ⟨hlen, hval⟩ e m (List.mem_of_mem_erase hmi)
            · rw [if_neg hae] at hmi
              exact wf_outputs_lt g ⟨hlen, hval⟩ a m hmi
          · have : m = b := List.mem_singleton.mp hmb
            omega
        · rw [if_neg hia] at hm
          by_cases hie : i = e
          · rw [if_pos hie] at hm
            exact wf_outputs_lt g ⟨hlen, hval⟩ e m (List.mem_of_mem_erase hm)
          · rw [if_neg hie] at hm
            exact wf_outputs_lt g ⟨hlen, hval⟩ i m hm
    · -- mirror multiplicities
      intro x y
      rw [hOut x, hIn y]
      by_cases hyb : y = b
      · rw [if_pos hyb, hyb]
        rw [List.count_append]
        by_cases hxa : x = a
        · rw [if_pos hxa, hxa, List.count_append]
          have h1 : ([b] : List Nat).count b = 1 := by simp
          by_cases hae : a = e
          · rw [if_pos hae, hae]
            rw [h1, List.count_erase_self, hcb]
            have h2 : ([e] : List Nat).count e = 1 := by simp
            rw [h2]
            omega
          · rw [if_neg hae]
            rw [h1, hcnt a b, hhead, List.count_cons_of_ne hae]
            have h2 : ([a] : List Nat).count a = 1 := by simp
            rw [h2]
        · rw [if_neg hxa]
          have h0 : ([a] : List Nat).count x = 0 := by
            simp [List.count_singleton', hxa]
          rw [h0]
          by_cases hxe : x = e
          · rw [if_pos hxe, hxe]
            rw [List.count_erase_self, hcb]
            omega
          · rw [if_neg hxe]
            rw [hcnt x b, hhead, List.count_cons_of_ne hxe]
            omega
      · rw [if_neg hyb]
        by_cases hxa : x = a
        · rw [if_pos hxa, hxa, List.count_append]
          have h0 : ([b] : List Nat).count y = 0 := by
            simp [List.count_singleton', hyb]
          rw [h0]
          by_cases hae : a = e
          · rw [if_pos hae, hae]
            rw [List.count_erase_of_ne hyb]
            rw [hcnt e y]
            omega
          · rw [if_neg hae]
            rw [hcnt a y]
            omega
        · rw [if_neg hxa]
          by_cases hxe : x = e
          · rw [if_pos hxe, hxe]
            rw [List.count_erase_of_ne hyb]
            exact hcnt e y
          · rw [if_neg hxe]
            exact hcnt x y
    · -- capacities
      intro i hi
      rw [hnodes] at hi ⊢
      rw [hIn i]
      by_cases hib : i = b
      · rw [if_pos hib, hib]
        have hcapb := hcap b hb
        rw [hhead] at hcapb
        rw [List.length_append]
        have h1 : ([a] : List Nat).length = 1 := rfl
        rw [h1, List.length_cons] at *
        omega
      · rw [if_neg hib]
        exact hcap i hi
  · -- nonfull branch: plain append
    have hIn := add_edge_nonfull_inputsOf g a b ha hb hcond hnot hlen
    have hOut := add_edge_nonfull_outputsOf g a b ha hb hcond hnot hlen
    have hnodes : (g.add_edge a b).nodes = g.nodes := by
      rw [add_edge_nonfull_eq g a b ha hb hcond hnot]
    have hedlen : (g.add_edge a b).edges.length = g.edges.length := by
      rw [add_edge_nonfull_eq g a b ha hb hcond hnot]
      show (updEdges (updEdges g.edges b
          (fun E => Edges.mk (g.inputsOf b ++ [a]) E.outputs)) a
          (fun E => Edges.mk E.inputs (E.outputs ++ [b]))).length = g.edges.length
      rw [updEdges_length, updEdges_length]
    refine ⟨⟨by rw [hedlen, hnodes]; exact hlen, ?_⟩, ?_, ?_⟩
    · intro i hi
      rw [hnodes]
      constructor
      · intro m hm
        rw [hIn i] at hm
        by_cases hib : i = b
        · rw [if_pos hib] at hm
          rcases List.mem_append.mp hm with hmt | hma
          · exact wf_inputs_lt g ⟨hlen, hval⟩ b m hmt
          · have : m = a := List.mem_singleton.mp hma
            omega
        · rw [if_neg hib] at hm
          exact wf_inputs_lt g ⟨hlen, hval⟩ i m hm
      · intro m hm
        rw [hOut i] at hm
        by_cases hia : i = a
        · rw [if_pos hia] at hm
          rcases List.mem_append.mp hm with hmi | hmb
          · exact wf_outputs_lt g ⟨hlen, hval⟩ a m hmi
          · have : m = b := List.mem_singleton.mp hmb
            omega
        · rw [if_neg hia] at hm
          exact wf_outputs_lt g ⟨hlen, hval⟩ i m hm
    · intro x y
      rw [hOut x, hIn y]
      by_cases hyb : y = b
      · rw [if_pos hyb, hyb, List.count_append]
        by_cases hxa : x = a
        · rw [if_pos hxa, hxa, List.count_append]
          have h1 : ([b] : List Nat).count b = 1 := by simp
          have h2 : ([a] : List Nat).count a = 1 := by simp
          rw [h1, h2, hcnt a b]
        · rw [if_neg hxa]
          have h0 : ([a] : List Nat).count x = 0 := by
            simp [List.count_singleton', hxa]
          rw [h0, hcnt x b]
          omega
      · rw [if_neg hyb]
        by_cases hxa : x = a
        · rw [if_pos hxa, hxa, List.count_append]
          have h0 : ([b] : List Nat).count y = 0 := by
            simp [List.count_singleton', hyb]
          rw [h0, hcnt a y]
          omega
        · rw [if_neg hxa]
          exact hcnt x y
    · intro i hi
      rw [hnodes] at hi ⊢
      rw [hIn i]
      by_cases hib : i = b
      · rw [if_pos hib, hib]
        rw [List.length_append]
        have h1 : ([a] : List Nat).length = 1 := rfl
        rw [h1]
        omega
      · rw [if_neg hib]
        exact hcap i hi

theorem ginv_new : GInv Graph.new := by
  refine ⟨⟨rfl, ?_⟩, ?_, ?_⟩
  · intro i hi
    simp [Graph.new] at hi
  · intro x y
    have h1 : Graph.new.outputsOf x = [] := by
      rw [Graph.outputsOf, Graph.edgeAt, getD_out _ x (by simp [Graph.new])]
    have h2 : Graph.new.inputsOf y = [] := by
      rw [Graph.inputsOf, Graph.edgeAt, getD_out _ y (by simp [Graph.new])]
    rw [h1, h2]
    rfl
  · intro i hi
    simp [Graph.new] at hi

theorem ginv_apply (g : Graph) (act : GAction) (h : GInv g) : GInv (applyAction g act) := by
  cases act with
  | addNode op => exact ginv_add_node g op h
  | addEdge a b => exact ginv_add_edge g a b h
  | removeEdge a b => exact ginv_remove_edge g a b h
  | removeNode k => exact ginv_remove_node g k h

theorem ginv_foldl (acts : List GAction) :
    ∀ g : Graph, GInv g → GInv (acts.foldl applyAction g) := by
  induction acts with
  | nil => intro g h; exact h
  | cons act rest ih =>
    intro g h
    exact ih (applyAction g act) (ginv_apply g act h)

theorem ginv_runActions (acts : List GAction) : GInv (runActions acts) :=
  ginv_foldl acts Graph.new ginv_new

/-- C6: capacity invariant P1. The input capacity is 0 for the `Root` domain
op, 2 for the four combinators (`Union`, `Subtraction`, `Intersection`,
`SmoothMinimum`) and 1 for every other family; and after every sequence of
graph mutations (node creation, `add_edge`, `remove_edge`, `remove_node`)
starting from the empty graph, every node's input list is no longer than its
family's capacity. -/
theorem capacity_invariant :
    (OpFamily.Domain .Root).get_input_capacity = 0
    ∧ (OpFamily.Primitive .Union).get_input_capacity = 2
    ∧ (OpFamily.Primitive .Subtraction).get_input_capacity = 2
    ∧ (OpFamily.Primitive .Intersection).get_input_capacity = 2
    ∧ (OpFamily.Primitive .SmoothMinimum).get_input_capacity = 2
    ∧ (∀ f : OpFamily, f ≠ .Domain .Root → f ≠ .Primitive .Union →
        f ≠ .Primitive .Subtraction → f ≠ .Primitive .Intersection →
        f ≠ .Primitive .SmoothMinimum → f.get_input_capacity = 1)
    ∧ (∀ acts : List GAction, capOK (runActions acts)) := by
  refine ⟨rfl, rfl, rfl, rfl, rfl, ?_, ?_⟩
  · intro f h0 h1 h2 h3 h4
    cases f with
    | Domain d =>
      cases d with
      | Root => exact absurd rfl h0
      | Transform => rfl
      | Twist => rfl
      | Bend => rfl
    | Primitive p =>
      cases p with
      | Sphere => rfl
      | Box => rfl
      | Plane => rfl
      | Torus => rfl
      | Union => exact absurd rfl h1
      | Subtraction => exact absurd rfl h2
      | Intersection => exact absurd rfl h3
      | SmoothMinimum => exact absurd rfl h4
      | Render => rfl
  · intro acts
    exact (ginv_runActions acts).2.2

theorem capacity_invariant_witness :
    ((OpFamily.Primitive PrimitiveType.Sphere) ≠ .Domain .Root
      ∧ (OpFamily.Primitive PrimitiveType.Sphere).get_input_capacity = 1)
    ∧ capOK (runActions [.addNode (Op.new (.Primitive .Sphere) 0),
        .addNode (Op.new (.Primitive .Union) 1), .addEdge 0 1]) :=
  ⟨⟨by decide,
    capacity_invariant.2.2.2.2.2.1 (.Primitive .Sphere)
      (by decide) (by decide) (by decide) (by decide) (by decide)⟩,
   capacity_invariant.2.2.2.2.2.2 [.addNode (Op.new (.Primitive .Sphere) 0),
        .addNode (Op.new (.Primitive .Union) 1), .addEdge 0 1]⟩

/-- C7: bidirectional edge consistency P2. After any sequence of graph
mutations (node creation, `add_edge`, `remove_edge`, `remove_node`) starting
from the empty graph, `b` appears in `edges[a].outputs` iff `a` appears in
`edges[b].inputs`. -/
theorem bidirectional_consistency :
    ∀ (acts : List GAction) (a b : Nat),
      b ∈ (runActions acts).outputsOf a ↔ a ∈ (runActions acts).inputsOf b := by
  intro acts a b
  have hc := (ginv_runActions acts).2.1 a b
  constructor
  · intro hmem
    have : 0 < ((runActions acts).outputsOf a).count b := List.count_pos_iff.mpr hmem
    exact List.count_pos_iff.mp (by omega)
  · intro hmem
    have : 0 < ((runActions acts).inputsOf b).count a := List.count_pos_iff.mpr hmem
    exact List.count_pos_iff.mp (by omega)

theorem emitsOf_append_visits (xs : List Nat) (w : List TravTask) :
    emitsOf (xs.map .visit ++ w) = emitsOf w := by
  induction xs with
  | nil => rfl
  | cons x xs ih => simpa [emitsOf] using ih

theorem firstEmit_append_visits (xs : List Nat) (w : List TravTask) :
    firstEmit (xs.map .visit ++ w) = firstEmit w := by
  induction xs with
  | nil => rfl
  | cons x xs ih => simpa [firstEmit] using ih

theorem firstEmit_eq_head (w : List TravTask) : firstEmit w = (emitsOf w).head? := by
  induction w with
  | nil => rfl
  | cons t rest ih =>
    cases t with
    | visit n => simpa [firstEmit, emitsOf] using ih
    | emit n => simp [firstEmit, emitsOf]

theorem runTrav_nil (g : Graph) (fuel : Nat) (s : TravSt) :
    g.runTrav fuel [] s = s := by
  cases fuel with
  | zero => rfl
  | succ f => rfl

theorem workOK_tail (g : Graph) (t : TravTask) (rest : List TravTask)
    (h : WorkOK g (t :: rest)) : WorkOK g rest := h.2

theorem workOK_build (g : Graph) (xs : List Nat) (n : Nat) (rest : List TravTask)
    (hxs : ∀ m ∈ xs, m ∈ g.inputsOf n)
    (hn : ∀ q, firstEmit rest = some q → n ∈ g.inputsOf q)
    (hrest : WorkOK g rest) :
    WorkOK g (xs.map .visit ++ .emit n :: rest) := by
  induction xs with
  | nil =>
    exact ⟨fun q hq => hn q hq, hrest⟩
  | cons x xs ih =>
    refine ⟨?_, ih (fun m hm => hxs m (List.mem_cons_of_mem _ hm))⟩
    intro q hq
    have hq2 : firstEmit (List.map TravTask.visit xs ++ TravTask.emit n :: rest) = some q := hq
    rw [firstEmit_append_visits] at hq2
    have : firstEmit (TravTask.emit n :: rest) = some n := rfl
    rw [this] at hq2
    have hq := hq2
    have hqn : q = n := (Option.some_inj.mp hq).symm
    rw [hqn]
    exact hxs x (List.mem_cons_self _ _)

theorem emitsOKAux_mono (g : Graph) (order order' E E' : List Nat)
    (work : List TravTask)
    (ho : ∀ x ∈ order, x ∈ order')
    (hE : ∀ x ∈ E, x ∈ order' ∨ x ∈ E') :
    ∀ seen seen' : List Nat,
      (∀ x ∈ seen, x ∈ order' ∨ x ∈ seen' ∨ x ∈ E') →
      EmitsOKAux g order E work seen → EmitsOKAux g order' E' work seen' := by
  induction work with
  | nil => intro seen seen' hs h; exact trivial
  | cons t rest ih =>
    intro seen seen' hs h
    cases t with
    | visit m =>
      show EmitsOKAux g order' E' rest (m :: seen')
      have h2 : EmitsOKAux g order E rest (m :: seen) := h
      apply ih (m :: seen) (m :: seen') ?_ h2
      intro x hx
      rcases List.mem_cons.mp hx with rfl | hx2
      · exact Or.inr (Or.inl (List.mem_cons_self _ _))
      · rcases hs x hx2 with h1 | h1 | h1
        · exact Or.inl h1
        · exact Or.inr (Or.inl (List.mem_cons_of_mem _ h1))
        · exact Or.inr (Or.inr h1)
    | emit q =>
      obtain ⟨hq, hrest⟩ := h
      refine ⟨?_, ih seen seen' hs hrest⟩
      intro m hm
      rcases hq m hm with h1 | h1 | h1
      · exact Or.inl (ho m h1)
      · rcases hs m h1 with h2 | h2 | h2
        · exact Or.inl h2
        · exact Or.inr (Or.inl h2)
        · exact Or.inr (Or.inr h2)
      · rcases hE m h1 with h2 | h2
        · exact Or.inl h2
        · exact Or.inr (Or.inr h2)

theorem emitsOKAux_peel (g : Graph) (order E : List Nat) :
    ∀ (xs : List Nat) (W : List TravTask) (seen : List Nat),
      EmitsOKAux g order E W (xs.reverse ++ seen) →
      EmitsOKAux g order E (xs.map .visit ++ W) seen := by
  intro xs
  induction xs with
  | nil => intro W seen h; simpa using h
  | cons x xs ih =>
    intro W seen h
    show EmitsOKAux g order E (xs.map .visit ++ W) (x :: seen)
    apply ih W (x :: seen)
    rw [List.reverse_cons, List.append_assoc] at h
    simpa using h

theorem workOK_adjChain (g : Graph) :
    ∀ w : List TravTask, WorkOK g w → AdjChain g (emitsOf w) := by
  intro w
  induction w with
  | nil => intro h; exact trivial
  | cons t rest ih =>
    intro h
    obtain ⟨hhead, hrest⟩ := h
    cases t with
    | visit m =>
      show AdjChain g (emitsOf rest)
      exact ih hrest
    | emit q =>
      show AdjChain g (q :: emitsOf rest)
      cases hrest2 : emitsOf rest with
      | nil => exact trivial
      | cons e es =>
        have hfe : firstEmit rest = some e := by
          rw [firstEmit_eq_head, hrest2]
          rfl
        refine ⟨?_, ?_⟩
        · exact hhead e hfe
        · rw [← hrest2]
          exact ih hrest

theorem adjChain_transGen (g : Graph) :
    ∀ (es : List Nat) (q : Nat), AdjChain g (q :: es) →
      ∀ m ∈ es, Relation.TransGen g.stepRel m q := by
  intro es
  induction es with
  | nil => intro q h m hm; cases hm
  | cons e es ih =>
    intro q h m hm
    obtain ⟨hedge, hchain⟩ := h
    rcases List.mem_cons.mp hm with rfl | hm2
    · exact Relation.TransGen.single hedge
    · have : Relation.TransGen g.stepRel m e := ih e hchain m hm2
      exact Relation.TransGen.tail this hedge

theorem goodOrder_append (g : Graph) (l : List Nat) (n : Nat)
    (hl : GoodOrder g l) (hn : ∀ m ∈ g.inputsOf n, m ∈ l) :
    GoodOrder g (l ++ [n]) := by
  intro i hi m hm
  rw [List.length_append, List.length_singleton] at hi
  by_cases hil : i < l.length
  · have hget : (l ++ [n]).get ⟨i, by simp; omega⟩ = l.get ⟨i, hil⟩ := by
      simp only [List.get_eq_getElem, List.getElem_append_left hil]
    rw [hget] at hm
    have := hl i hil m hm
    rw [List.take_append_of_le_length (by omega)]
    exact this
  · have hieq : i = l.length := by omega
    have hget : (l ++ [n]).get ⟨i, by simp; omega⟩ = n := by
      subst hieq
      simp
    rw [hget] at hm
    have := hn m hm
    rw [hieq, List.take_left]
    exact this

theorem acyclic_of_rank (g : Graph) (f : Nat → Nat)
    (h : ∀ x y, g.stepRel x y → f y < f x) : g.Acyclic := by
  intro n hn
  have hlt : ∀ p q : Nat, Relation.TransGen g.stepRel p q → f q < f p := by
    intro p q ht
    induction ht with
    | single hstep => exact h _ _ hstep
    | tail ht hstep ih => exact lt_trans (h _ _ hstep) ih
  exact absurd (hlt n n hn) (lt_irrefl _)

theorem stepRel_lt_edges (g : Graph) (x y : Nat) (h : g.stepRel x y) :
    x < g.edges.length := by
  by_contra hcon
  rw [Graph.stepRel, Graph.inputsOf, Graph.edgeAt, getD_out _ x (by omega)] at h
  cases h

theorem runTrav_good (g : Graph) (hac : g.Acyclic)
    (hwfI : ∀ i, ∀ m ∈ g.inputsOf i, m < g.nodes.length) :
    ∀ (fuel : Nat) (work : List TravTask) (s : TravSt),
      TravInv g work s → GoodOrder g (g.runTrav fuel work s).order := by
  intro fuel
  induction fuel with
  | zero => intro work s hinv; exact hinv.1
  | succ f ih =>
    intro work s hinv
    obtain ⟨hI1, hI2, hI3, hI4, hI5⟩ := hinv
    cases work with
    | nil => exact hI1
    | cons t rest =>
      cases t with
      | visit n =>
        have hred : g.runTrav (f+1) (.visit n :: rest) s
            = if n ∈ s.visited ∨ g.nodes.length ≤ n then g.runTrav f rest s
              else g.runTrav f ((g.inputsOf n).map .visit ++ .emit n :: rest)
                ⟨n :: s.visited, s.order⟩ := rfl
        by_cases hguard : n ∈ s.visited ∨ g.nodes.length ≤ n
        · rw [hred, if_pos hguard]
          apply ih rest s
          have hnN : n < g.nodes.length := hI5 (.visit n) (List.mem_cons_self _ _)
          have hnv : n ∈ s.visited := by
            rcases hguard with h | h
            · exact h
            · exact absurd h (by omega)
          have hnOE : n ∈ s.order ∨ n ∈ emitsOf rest := (hI2 n).mp hnv
          refine ⟨hI1, ?_, hI3.2, ?_, ?_⟩
          · intro x
            exact hI2 x
          · have h4 : EmitsOKAux g s.order (emitsOf rest) rest [n] := hI4
            apply emitsOKAux_mono g s.order s.order (emitsOf rest) (emitsOf rest) rest
              (fun x hx => hx) (fun x hx => Or.inr hx) [n] [] ?_ h4
            intro x hx
            have hxn : x = n := List.mem_singleton.mp hx
            subst hxn
            rcases hnOE with h | h
            · exact Or.inl h
            · exact Or.inr (Or.inr h)
          · intro t2 ht
            exact hI5 t2 (List.mem_cons_of_mem _ ht)
        · rw [hred, if_neg hguard]
          apply ih
          have hnN : n < g.nodes.length := by
            rcases Nat.lt_or_ge n g.nodes.length with h | h
            · exact h
            · exact absurd (Or.inr h) hguard
          have hEnew : emitsOf ((g.inputsOf n).map .visit ++ .emit n :: rest)
              = n :: emitsOf rest := by
            rw [emitsOf_append_visits]
            rfl
          refine ⟨hI1, ?_, ?_, ?_, ?_⟩
          · intro x
            rw [hEnew]
            show x ∈ n :: s.visited ↔ x ∈ s.order ∨ x ∈ n :: emitsOf rest
            constructor
            · intro hx
              rcases List.mem_cons.mp hx with rfl | hx2
              · exact Or.inr (List.mem_cons_self _ _)
              · rcases (hI2 x).mp hx2 with h | h
                · exact Or.inl h
                · exact Or.inr (List.mem_cons_of_mem _ h)
            · intro hx
              rcases hx with h | h
              · exact List.mem_cons_of_mem _ ((hI2 x).mpr (Or.inl h))
              · rcases List.mem_cons.mp h with rfl | h2
                · exact List.mem_cons_self _ _
                · exact List.mem_cons_of_mem _ ((hI2 x).mpr (Or.inr h2))
          · apply workOK_build g _ n rest (fun m hm => hm) ?_ hI3.2
            intro q hq
            exact hI3.1 q hq
          · rw [hEnew]
            apply emitsOKAux_peel
            show (∀ m ∈ g.inputsOf n,
                m ∈ s.order ∨ m ∈ (g.inputsOf n).reverse ++ [] ∨ m ∈ n :: emitsOf rest)
              ∧ EmitsOKAux g s.order (n :: emitsOf rest) rest ((g.inputsOf n).reverse ++ [])
            constructor
            · intro m hm
              refine Or.inr (Or.inl ?_)
              rw [List.append_nil, List.mem_reverse]
              exact hm
            · have h4 : EmitsOKAux g s.order (emitsOf rest) rest [n] := hI4
              apply emitsOKAux_mono g s.order s.order (emitsOf rest) (n :: emitsOf rest) rest
                (fun x hx => hx) (fun x hx => Or.inr (List.mem_cons_of_mem _ hx))
                [n] _ ?_ h4
              intro x hx
              have hxn : x = n := List.mem_singleton.mp hx
              subst hxn
              exact Or.inr (Or.inr (List.mem_cons_self _ _))
          · intro t2 ht
            rcases List.mem_append.mp ht with h | h
            · obtain ⟨m, hm, rfl⟩ := List.mem_map.mp h
              show m < g.nodes.length
              exact hwfI n m hm
            · rcases List.mem_cons.mp h with rfl | h2
              · exact hnN
              · exact hI5 t2 (List.mem_cons_of_mem _ h2)
      | emit n =>
        have hred : g.runTrav (f+1) (.emit n :: rest) s
            = g.runTrav f rest ⟨s.visited, s.order ++ [n]⟩ := rfl
        rw [hred]
        apply ih
        have hkey : ∀ m ∈ g.inputsOf n, m ∈ s.order := by
          intro m hm
          have hhead : ∀ m ∈ g.inputsOf n,
              m ∈ s.order ∨ m ∈ ([] : List Nat) ∨ m ∈ n :: emitsOf rest := hI4.1
          rcases hhead m hm with h | h | h
          · exact h
          · cases h
          · exfalso
            rcases List.mem_cons.mp h with rfl | h2
            · exact hac m (Relation.TransGen.single hm)
            · have hchain : AdjChain g (n :: emitsOf rest) := workOK_adjChain g _ hI3
              have htg : Relation.TransGen g.stepRel m n :=
                adjChain_transGen g (emitsOf rest) n hchain m h2
              exact hac n (Relation.TransGen.head hm htg)
        refine ⟨?_, ?_, hI3.2, ?_, ?_⟩
        · exact goodOrder_append g s.order n hI1 hkey
        · intro x
          show x ∈ s.visited ↔ x ∈ s.order ++ [n] ∨ x ∈ emitsOf rest
          constructor
          · intro hx
            rcases (hI2 x).mp hx with h | h
            · exact Or.inl (List.mem_append.mpr (Or.inl h))
            · rcases List.mem_cons.mp (show x ∈ n :: emitsOf rest from h) with rfl | h2
              · exact Or.inl (List.mem_append.mpr (Or.inr (List.mem_singleton.mpr rfl)))
              · exact Or.inr h2
          · intro hx
            rcases hx with h | h
            · rcases List.mem_append.mp h with h2 | h2
              · exact (hI2 x).mpr (Or.inl h2)
              · have hxn : x = n := List.mem_singleton.mp h2
                subst hxn
                exact (hI2 x).mpr (Or.inr (List.mem_cons_self _ _))
            · exact (hI2 x).mpr (Or.inr (List.mem_cons_of_mem _ h))
        · have h4 : EmitsOKAux g s.order (n :: emitsOf rest) rest [] := hI4.2
          apply emitsOKAux_mono g s.order (s.order ++ [n]) (n :: emitsOf rest) (emitsOf rest)
            rest (fun x hx => List.mem_append.mpr (Or.inl hx)) ?_ [] []
            (fun x hx => absurd hx (List.not_mem_nil x)) h4
          intro x hx
          rcases List.mem_cons.mp hx with rfl | h2
          · exact Or.inl (List.mem_append.mpr (Or.inr (List.mem_singleton.mpr rfl)))
          · exact Or.inr h2
        · intro t2 ht
          exact hI5 t2 (List.mem_cons_of_mem _ ht)

/-- C2: dependency ordering P4. For every well-formed acyclic graph and every
root index, the post-order returned by `traverse` is dependency-ordered: every
entry of `inputs(node_at(i))` appears strictly earlier in the output than
position `i` (membership in the prefix `take i`). -/
theorem traverse_dependency_ordered (g : Graph) (root : Nat)
    (hwf : g.wf) (hac : g.Acyclic) :
    GoodOrder g (g.traverse root) := by
  by_cases hroot : root < g.nodes.length
  · apply runTrav_good g hac (wf_inputs_lt g hwf) g.travFuel [.visit root] ⟨[], []⟩
    unfold TravInv
    refine ⟨?_, ?_, ?_, trivial, ?_⟩
    · intro i hi m hm
      simp at hi
    · intro x
      constructor
      · intro hx
        cases hx
      · intro hx
        rcases hx with h | h
        · cases h
        · exact absurd h (List.not_mem_nil x)
    · show (∀ q, firstEmit ([] : List TravTask) = some q
          → (TravTask.visit root).tnode ∈ g.inputsOf q) ∧ WorkOK g []
      exact ⟨fun q hq => (nomatch hq), trivial⟩
    · intro t ht
      rcases List.mem_cons.mp ht with rfl | h2
      · exact hroot
      · cases h2
  · show GoodOrder g (g.runTrav g.travFuel [.visit root] ⟨[], []⟩).order
    obtain ⟨fpred, hf⟩ : ∃ f : Nat, g.travFuel = f + 1 :=
      ⟨g.nodes.length + ((g.edges.map (fun E => E.inputs.length)).sum), by
        unfold Graph.travFuel
        omega⟩
    rw [hf]
    have h1 : g.runTrav (fpred + 1) [.visit root] ⟨[], []⟩
        = if root ∈ ([] : List Nat) ∨ g.nodes.length ≤ root
          then g.runTrav fpred [] ⟨[], []⟩
          else g.runTrav fpred ((g.inputsOf root).map .visit ++ [.emit root])
            ⟨[root], []⟩ := rfl
    rw [h1, if_pos (Or.inr (by omega)), runTrav_nil]
    intro i hi m hm
    simp at hi

theorem traverse_dependency_ordered_witness :
    scenarioAFixed.graph.wf
    ∧ scenarioAFixed.graph.traverse 2 = [0, 1, 2]
    ∧ GoodOrder scenarioAFixed.graph (scenarioAFixed.graph.traverse 2) :=
  ⟨by decide, by rfl,
   traverse_dependency_ordered scenarioAFixed.graph 2 (by decide)
     (acyclic_of_rank scenarioAFixed.graph (fun n => n) (by
        intro x y h
        show y < x
        have hx := stepRel_lt_edges scenarioAFixed.graph x y h
        have hx3 : x < 3 := by
          have he3 : scenarioAFixed.graph.edges.length = 3 := rfl
          omega
        interval_cases x
        · have h0 : scenarioAFixed.graph.inputsOf 0 = [] := rfl
          rw [Graph.stepRel, h0] at h
          cases h
        · have hin1 : scenarioAFixed.graph.inputsOf 1 = [0] := rfl
          rw [Graph.stepRel, hin1] at h
          have hy : y = 0 := List.mem_singleton.mp h
          omega
        · have hin2 : scenarioAFixed.graph.inputsOf 2 = [1] := rfl
          rw [Graph.stepRel, hin2] at h
          have hy : y = 1 := List.mem_singleton.mp h
          omega))⟩

end Sdfperf
